import Mathlib

/-!
The secguro detector adapter (gitleaks) and ignore engine.

A shallow embedding of `pkg/gitleaks/gitleaks.go` and `secguro/ignoring.go`.

Conventions of the embedding:
* a Go `error` is identified by its message (`GoError`);
* a Go function returning `(T, error)` is an `Except GoError T`;
* Go `int` is the signed 64-bit integer: arithmetic on values read from the
  input wraps through `wrapInt`;
* the collaborators that live outside the translated files (the `git`
  package, the operating system, `encoding/json`) are parameters.
-/

namespace Secguro

/-- A Go `error`, identified by its message. -/
abbrev GoError := String

/-- Two-complement wrap-around of Go `int` (64 bit) arithmetic. -/
def wrapInt (x : Int) : Int :=
  (x + 9223372036854775808) % 18446744073709551616 - 9223372036854775808

/-! ## Data model -/

/-- Modelled from the spec: `types.GitInfo` is declared outside the translated
files; the fields are the ones the adapter reads (`CommitHash`, `File`, `Line`),
the remaining provenance (author, date, message) is carried as `Provenance`. -/
structure GitInfo where
  CommitHash : String
  File : String
  Line : Int
  Provenance : List String
  deriving DecidableEq, Repr

/-- Modelled from the spec: `types.UnifiedFinding` is declared outside the
translated files; the fields are those of the struct literal in
`convertGitleaksFindingToUnifiedFinding`. -/
structure UnifiedFinding where
  Detector : String
  IdOnExternalPlatform : Option String
  Rule : String
  File : String
  LineStart : Int
  LineEnd : Int
  ColumnStart : Int
  ColumnEnd : Int
  Match : String
  Hint : String
  Severity : String
  GitInfo : Option GitInfo
  deriving DecidableEq, Repr

/-- Modelled from the spec: `types.DetectorTermination` is declared outside the
translated files; `{Detector, Successful}` as in the struct literals of
`GetGitleaksFindingsAsUnified`. -/
structure DetectorTermination where
  Detector : String
  Successful : Bool
  deriving DecidableEq, Repr

/-- The record `GitleaksFinding` of gitleaks.go. -/
structure GitleaksFinding where
  RuleID : String
  File : String
  StartLine : Int
  EndLine : Int
  StartColumn : Int
  EndColumn : Int
  Match : String
  Commit : String
  Date : String
  Author : String
  Email : String
  Message : String
  deriving DecidableEq, Repr

/-! ## The Repository History Resolver, as a parameter -/

/-- The two functions of package `git` the adapter calls.
`GetGitInfo directoryToScan gitMode commit file line current` and
`GetLatestCommitHash directoryToScan`. -/
structure Git where
  GetGitInfo : String → Bool → String → String → Int → Bool → Except GoError (Option GitInfo)
  GetLatestCommitHash : String → Except GoError String

/-! ## gitleaks.go -/

/-- The function `convertGitleaksFindingToUnifiedFinding` of gitleaks.go. -/
def convertGitleaksFindingToUnifiedFinding (git : Git) (directoryToScan : String) (gitMode : Bool)
    (gitleaksFinding : GitleaksFinding) : Except GoError UnifiedFinding :=
  match git.GetGitInfo directoryToScan gitMode gitleaksFinding.Commit
      gitleaksFinding.File gitleaksFinding.StartLine false with
  | .error err => .error err
  | .ok gitInfo =>
    match git.GetGitInfo directoryToScan gitMode gitleaksFinding.Commit
        gitleaksFinding.File gitleaksFinding.StartLine true with
    | .error err => .error err
    | .ok currentLocationGitInfo =>
      let unifiedFinding : UnifiedFinding :=
        { Detector := "gitleaks"
          IdOnExternalPlatform := none
          Rule := gitleaksFinding.RuleID
          File := "/" ++ gitleaksFinding.File
          LineStart := gitleaksFinding.StartLine
          LineEnd := gitleaksFinding.EndLine
          ColumnStart := gitleaksFinding.StartColumn
          ColumnEnd := gitleaksFinding.EndColumn
          Match := gitleaksFinding.Match
          Hint := ""
          Severity := "ERROR"
          GitInfo := gitInfo }
      match currentLocationGitInfo with
      | none => .ok unifiedFinding
      | some cur =>
        match git.GetLatestCommitHash directoryToScan with
        | .error err => .error err
        | .ok latestCommitHash =>
          if cur.CommitHash = latestCommitHash then
            .ok { unifiedFinding with
                  File := cur.File
                  LineStart := cur.Line
                  LineEnd := wrapInt (wrapInt (cur.Line + gitleaksFinding.EndLine)
                    - gitleaksFinding.StartLine) }
          else
            .ok { unifiedFinding with File := "", LineStart := -1, LineEnd := -1 }

/-! ### The adapter entry point -/

/-- A byte slice (`[]byte`). -/
abbrev Bytes := List UInt8

/-- The collaborators of `getGitleaksOutputJson` and of the JSON step:
`os.MkdirTemp`, the run of the gitleaks binary (`cmd.Output` on the command line
and working directory given; `none` is a nil `out`), `os.ReadFile`,
`json.Unmarshal` into `[]GitleaksFinding`, and the constant
`dependencies.DependenciesDir`. -/
structure DetectorHost where
  DependenciesDir : String
  MkdirTemp : Except GoError String
  Output : List String → String → Option Bytes
  ReadFile : String → Except GoError Bytes
  Unmarshal : Bytes → Except GoError (List GitleaksFinding)

/-- The function `getGitleaksOutputJson` of gitleaks.go (the deferred removal
of the temporary directory is not modelled). -/
def getGitleaksOutputJson (host : DetectorHost) (directoryToScan : String) (gitMode : Bool) :
    Except GoError Bytes :=
  match host.MkdirTemp with
  | .error err => .error err
  | .ok tmpDir =>
    let gitleaksOutputJsonPath := tmpDir ++ "/gitleaksOutput.json"
    let cmd : List String :=
      if gitMode then
        [host.DependenciesDir ++ "/gitleaks/gitleaks",
          "detect", "--report-format", "json", "--report-path", gitleaksOutputJsonPath]
      else
        [host.DependenciesDir ++ "/gitleaks/gitleaks",
          "detect", "--no-git", "--report-format", "json", "--report-path", gitleaksOutputJsonPath]
    match host.Output cmd directoryToScan with
    | none => .error "did not receive output from gitleaks"
    | some _ => host.ReadFile gitleaksOutputJsonPath

/-- Modelled from the spec: `functional.MapWithError` is declared outside the
translated files; it maps the records in order and the first failing record
fails the whole run (fail-fast per detector, not per record). -/
def MapWithError {α β : Type} (xs : List α) (f : α → Except GoError β) : Except GoError (List β) :=
  match xs with
  | [] => .ok []
  | x :: rest =>
    match f x with
    | .error err => .error err
    | .ok y =>
      match MapWithError rest f with
      | .error err => .error err
      | .ok ys => .ok (y :: ys)

/-- One send of the adapter, on the findings channel or on the termination
channel. The adapter is one sequential goroutine, so its sends form a list. -/
inductive ChannelWrite where
  | finding (unifiedFinding : UnifiedFinding)
  | termination (detectorTermination : DetectorTermination)
  deriving DecidableEq, Repr

/-- The function `GetGitleaksFindingsAsUnified` of gitleaks.go: the sends it
performs, in program order (the errors it prints are not part of the result). -/
def GetGitleaksFindingsAsUnified (host : DetectorHost) (git : Git) (directoryToScan : String)
    (gitMode : Bool) : List ChannelWrite :=
  match getGitleaksOutputJson host directoryToScan gitMode with
  | .error _ => [.termination { Detector := "gitleaks", Successful := false }]
  | .ok gitleaksOutputJson =>
    match host.Unmarshal gitleaksOutputJson with
    | .error _ => [.termination { Detector := "gitleaks", Successful := false }]
    | .ok gitleaksFindings =>
      match MapWithError gitleaksFindings
          (convertGitleaksFindingToUnifiedFinding git directoryToScan gitMode) with
      | .error _ => [.termination { Detector := "gitleaks", Successful := false }]
      | .ok unifiedFindings =>
        unifiedFindings.map ChannelWrite.finding
          ++ [.termination { Detector := "gitleaks", Successful := true }]

/-! ## ignoring.go -/

/-- The constant `ignoreFileName`. -/
def ignoreFileName : String := ".secguroignore"

/-- The constant `secretsIgnoreFileName`. -/
def secretsIgnoreFileName : String := ignoreFileName ++ "-secrets"

/-- The struct `IgnoreInstruction`: `LineNumber = -1` ignores all lines, empty
`Rules` ignores all rules. -/
structure IgnoreInstruction where
  FilePath : String
  LineNumber : Int
  Rules : List String
  deriving DecidableEq, Repr

/-! ### The operating system and the standard library, as seen by ignoring.go -/

/-- What a `bufio.Scanner` over an opened file delivers: the texts of the
successful `Scan` calls, then the value of `Err()`. -/
structure Scanned where
  lines : List String
  err : Option GoError
  deriving DecidableEq, Repr

/-- The outcome of `os.Open`: a file to scan, or an error together with what
`os.IsNotExist` says of it. -/
inductive OpenResult where
  | opened (file : Scanned)
  | failed (err : GoError) (isNotExist : Bool)
  deriving DecidableEq, Repr

/-- The file system: the outcome of `os.Open` at each path. -/
abbrev FileSystem := String → OpenResult

/-- The predicate `unicode.IsSpace`: the code points with the White_Space property. -/
def IsSpace (c : Char) : Bool :=
  let n := c.toNat
  (9 ≤ n && n ≤ 13) || n == 32 || n == 0x85 || n == 0xA0 || n == 0x1680
    || (0x2000 ≤ n && n ≤ 0x200A) || n == 0x2028 || n == 0x2029 || n == 0x202F
    || n == 0x205F || n == 0x3000

/-- The function `strings.TrimSpace`: leading and trailing white space removed. -/
def TrimSpace (s : String) : String :=
  ⟨((s.data.dropWhile IsSpace).reverse.dropWhile IsSpace).reverse⟩

/-- The function `strings.HasPrefix`. -/
def HasPrefix (s p : String) : Bool :=
  p.data.isPrefixOf s.data

/-- The call `regexp.MustCompile(pattern).MatchString(line)` for a pattern
without metacharacter, as is the only pattern the program compiles: the pattern
occurs somewhere in the line. -/
def MatchString (pattern line : String) : Bool :=
  line.data.tails.any (fun t => pattern.data.isPrefixOf t)

/-- The carriage return `bufio.ScanLines` drops at the end of a line. -/
def dropCR (l : List Char) : List Char :=
  if l.getLast? = some '\r' then l.dropLast else l

/-- The split function `bufio.ScanLines` run over a whole content: `cur` is the
line read so far. A final line without newline is delivered unless empty. -/
def scanLinesFrom : List Char → List Char → List (List Char)
  | [], cur => if cur = [] then [] else [dropCR cur]
  | c :: cs, cur =>
    if c = '\n' then dropCR cur :: scanLinesFrom cs [] else scanLinesFrom cs (cur ++ [c])

/-- The lines a scanner delivers for a file holding `content`. -/
def ScanLines (content : String) : List String :=
  (scanLinesFrom content.data []).map String.mk

/-- An opened file holding `content` that is read without error (every line
within the scanner buffer). -/
def fileWith (content : String) : OpenResult :=
  .opened { lines := ScanLines content, err := none }

/-- Modelled from the spec: `arrayIncludes` is declared outside the translated
files; it tells whether the slice holds the value. -/
def arrayIncludes (xs : List String) (x : String) : Bool :=
  xs.contains x

/-! ### Line-based instructions -/

/-- The scan loop of `getNumbersOfMatchingLines`: `lineNumber` counts from 1,
`matchingLines` collects the numbers of the lines the pattern matches. The
counter is not wrapped: a file does not reach 2^63 lines. -/
def matchingLinesLoop (pattern : String) : List String → Int → List Int → List Int
  | [], _, matchingLines => matchingLines
  | line :: rest, lineNumber, matchingLines =>
    if MatchString pattern line then
      matchingLinesLoop pattern rest (lineNumber + 1) (matchingLines ++ [lineNumber])
    else
      matchingLinesLoop pattern rest (lineNumber + 1) matchingLines

/-- The function `getNumbersOfMatchingLines` of ignoring.go. -/
def getNumbersOfMatchingLines (os : FileSystem) (filePath : String) (pattern : String) :
    Except GoError (List Int) :=
  match os filePath with
  | .failed err _ => .error err
  | .opened file =>
    let matchingLines := matchingLinesLoop pattern file.lines 1 []
    match file.err with
    | some err => .error err
    | none => .ok matchingLines

/-- The first loop of `getLineBasedIgnoreInstructions`: the files of the
findings, each kept once. -/
def filePathsLoop : List UnifiedFinding → List String → List String
  | [], filePathsWithResults => filePathsWithResults
  | unifiedFinding :: rest, filePathsWithResults =>
    if arrayIncludes filePathsWithResults unifiedFinding.File then
      filePathsLoop rest filePathsWithResults
    else
      filePathsLoop rest (filePathsWithResults ++ [unifiedFinding.File])

/-- The inner loop of `getLineBasedIgnoreInstructions` over the line numbers of one file. -/
def lineNumbersLoop (filePath : String) :
    List Int → List IgnoreInstruction → List IgnoreInstruction
  | [], ignoreInstructions => ignoreInstructions
  | lineNumber :: rest, ignoreInstructions =>
    lineNumbersLoop filePath rest
      (ignoreInstructions ++ [{ FilePath := filePath, LineNumber := lineNumber + 1, Rules := [] }])

/-- The second loop of `getLineBasedIgnoreInstructions` over the files. -/
def instructionsLoop (os : FileSystem) (directoryToScan : String) :
    List String → List IgnoreInstruction → List IgnoreInstruction
  | [], ignoreInstructions => ignoreInstructions
  | filePath :: rest, ignoreInstructions =>
    match getNumbersOfMatchingLines os (directoryToScan ++ "/" ++ filePath)
        "secguro-ignore-next-line" with
    | .error _ => instructionsLoop os directoryToScan rest ignoreInstructions
    | .ok lineNumbers =>
      instructionsLoop os directoryToScan rest
        (lineNumbersLoop filePath lineNumbers ignoreInstructions)

/-- The function `getLineBasedIgnoreInstructions` of ignoring.go; the package
variable `directoryToScan` is a parameter. -/
def getLineBasedIgnoreInstructions (os : FileSystem) (directoryToScan : String)
    (unifiedFindings : List UnifiedFinding) : List IgnoreInstruction :=
  let filePathsWithResults := filePathsLoop unifiedFindings []
  instructionsLoop os directoryToScan filePathsWithResults []

/-! ### File-based instructions -/

/-- The outcome of a Go call that may also end in a runtime panic. -/
inductive GoResult (α : Type) where
  | ok (value : α)
  | error (err : GoError)
  | panic
  deriving DecidableEq, Repr

/-- The variables of the scan loop of `getFileBasedIgnoreInstructions`. -/
structure ParserState where
  ignoreInstructions : List IgnoreInstruction
  inNewParagraph : Bool
  deriving DecidableEq, Repr

/-- One iteration of the scan loop of `getFileBasedIgnoreInstructions`;
`none` is the index-out-of-range panic of `ignoreInstructions[len-1]` on an
empty slice. -/
def parseLine (st : ParserState) (text : String) : Option ParserState :=
  let line := TrimSpace text
  if HasPrefix line "#" then
    some st
  else if line = "" then
    some { st with inNewParagraph := true }
  else if st.inNewParagraph then
    some { ignoreInstructions :=
             st.ignoreInstructions ++ [{ FilePath := line, LineNumber := -1, Rules := [] }]
           inNewParagraph := false }
  else
    match st.ignoreInstructions.getLast? with
    | none => none
    | some ignoreInstruction =>
      some { st with
             ignoreInstructions := st.ignoreInstructions.dropLast
               ++ [{ ignoreInstruction with Rules := ignoreInstruction.Rules ++ [line] }] }

/-- The scan loop of `getFileBasedIgnoreInstructions`. -/
def parseLines : List String → ParserState → Option ParserState
  | [], st => some st
  | text :: rest, st =>
    match parseLine st text with
    | none => none
    | some st' => parseLines rest st'

/-- The function `getFileBasedIgnoreInstructions` of ignoring.go. -/
def getFileBasedIgnoreInstructions (os : FileSystem) (directoryToScan : String) :
    GoResult (List IgnoreInstruction) :=
  match os (directoryToScan ++ "/" ++ ignoreFileName) with
  | .failed err isNotExist => if isNotExist then .ok [] else .error err
  | .opened file =>
    match parseLines file.lines { ignoreInstructions := [], inNewParagraph := true } with
    | none => .panic
    | some st =>
      match file.err with
      | some err => .error err
      | none => .ok st.ignoreInstructions

/-! ### Ignored secrets -/

/-- The scan loop of `getIgnoredSecrets`. -/
def secretsLoop : List String → List String → List String
  | [], ignoredSecrets => ignoredSecrets
  | text :: rest, ignoredSecrets =>
    let line := TrimSpace text
    if HasPrefix line "#" || line = "" then
      secretsLoop rest ignoredSecrets
    else
      secretsLoop rest (ignoredSecrets ++ [line])

/-- The function `getIgnoredSecrets` of ignoring.go. -/
def getIgnoredSecrets (os : FileSystem) (directoryToScan : String) : Except GoError (List String) :=
  match os (directoryToScan ++ "/" ++ secretsIgnoreFileName) with
  | .failed err isNotExist => if isNotExist then .ok [] else .error err
  | .opened file =>
    let ignoredSecrets := secretsLoop file.lines []
    match file.err with
    | some err => .error err
    | none => .ok ignoredSecrets

/-! ## The ignore engine in the words of the specification -/

/-- A comment line of a manifest: its trimmed text starts with `#`. -/
def isCommentLine (text : String) : Bool :=
  HasPrefix (TrimSpace text) "#"

/-- The lines of a manifest that count: trimmed, comment lines removed. -/
def keptLines (lines : List String) : List String :=
  (lines.map TrimSpace).filter (fun line => !HasPrefix line "#")

/-- The paragraphs of a manifest, in the words of the specification: the lines
are trimmed, the comment lines removed, and a paragraph is a maximal run of
non-blank lines (the lines between blank lines, where there are any). -/
def paragraphsOf (lines : List String) : List (List String) :=
  ((keptLines lines).splitOn "").filter (fun paragraph => !paragraph.isEmpty)

/-- The instruction of a paragraph, in the words of the specification: the first
line is the file path, the line number is -1, the remaining lines are the rules. -/
def instructionOfParagraph (paragraph : List String) : IgnoreInstruction :=
  { FilePath := paragraph.headD "", LineNumber := -1, Rules := paragraph.tail }

/-- The instructions of a manifest, in the words of the specification: one per
paragraph, in file order. -/
def manifestInstructions (lines : List String) : List IgnoreInstruction :=
  (paragraphsOf lines).map instructionOfParagraph

/-- The secret-ignore entries, as the code produces them: the trimmed texts of
the lines whose trimmed text is neither empty nor starts with `#`. -/
def trimmedEntries (lines : List String) : List String :=
  (lines.map TrimSpace).filter (fun line => !(HasPrefix line "#" || line = ""))

/-- The distinct values of a list, in order of first occurrence. -/
def firstOccurrences : List String → List String
  | [] => []
  | x :: xs => x :: (firstOccurrences xs).filter (fun y => y != x)

/-- The instructions of the markers of one file, in the words of the
specification: for each 1-based line number `n`, ascending, whose line contains
the marker text, the instruction `{filePath, n + 1, []}`. -/
def markerInstructions (filePath : String) (lines : List String) : List IgnoreInstruction :=
  (lines.enumFrom 1).filterMap (fun numbered =>
    if "secguro-ignore-next-line".data <:+: numbered.2.data then
      some { FilePath := filePath, LineNumber := (numbered.1 : Int) + 1, Rules := [] }
    else none)

/-! ### The scanner over the bytes of a file -/

/-- The constant `bufio.MaxScanTokenSize`: the buffer of a scanner grows to
64 KiB and no further. -/
def MaxScanTokenSize : Nat := 65536

/-- The number of bytes of a text in the file (UTF-8). -/
def byteLength (text : List Char) : Nat :=
  (text.map (fun c => c.utf8Size)).sum

/-- The lines of a content as they lie in the file, carriage returns included:
the text before each newline, and a final text without newline unless empty;
`cur` is the line read so far. -/
def rawLinesFrom : List Char → List Char → List (List Char)
  | [], cur => if cur = [] then [] else [cur]
  | c :: cs, cur =>
    if c = '\n' then cur :: rawLinesFrom cs [] else rawLinesFrom cs (cur ++ [c])

/-- The run of a `bufio.Scanner` with `bufio.ScanLines` over the lines of a file
that is read without I/O error: each line is delivered without its carriage
return, until a line of `MaxScanTokenSize` bytes or more, which fills the buffer
before its newline is seen and ends the scan with `bufio.ErrTooLong`. -/
def scanTokens : List (List Char) → Scanned
  | [] => { lines := [], err := none }
  | raw :: rest =>
    if MaxScanTokenSize ≤ byteLength raw then
      { lines := [], err := some "bufio.Scanner: token too long" }
    else
      { lines := String.mk (dropCR raw) :: (scanTokens rest).lines
        err := (scanTokens rest).err }

/-- What a scanner delivers for a file holding `content`. -/
def bufioScan (content : String) : Scanned :=
  scanTokens (rawLinesFrom content.data [])

/-- The content with every comment line deleted: the lines whose text, as the
scanner delivers it, is no comment line, each ended by a newline. -/
def deleteCommentLines (content : String) : String :=
  String.mk (((rawLinesFrom content.data []).filter
    (fun raw => !isCommentLine (String.mk (dropCR raw)))).flatMap (fun raw => raw ++ ['\n']))

/-! ## Concrete inputs used by the closed statements -/

/-- A gitleaks record: rule, file and the line range `StartLine .. EndLine`. -/
def recordAt (file : String) (startLine endLine : Int) : GitleaksFinding :=
  { RuleID := "generic-api-key", File := file, StartLine := startLine, EndLine := endLine,
    StartColumn := 1, EndColumn := 8, Match := "abc123", Commit := "c0ffee",
    Date := "", Author := "", Email := "", Message := "" }

/-- A resolver with fixed answers: `prov` for the provenance lookup, `cur` for
the current-location lookup, `latest` for the branch tip. -/
def fixedGit (prov cur : Except GoError (Option GitInfo)) (latest : Except GoError String) : Git :=
  { GetGitInfo := fun _ _ _ _ _ current => if current then cur else prov
    GetLatestCommitHash := fun _ => latest }

/-- A resolved location `file:line` last touched by commit `hash`. -/
def locationAt (hash file : String) (line : Int) : GitInfo :=
  { CommitHash := hash, File := file, Line := line, Provenance := [] }

/-- The resolver of a scan without history: every lookup answers nil. -/
def noHistoryGit : Git := fixedGit (.ok none) (.ok none) (.ok "")

/-- A resolver whose provenance lookup fails while the current-location lookup
finds the line last touched by commit `old`, the branch tip being `new`. -/
def provenanceFailingGit : Git :=
  fixedGit (.error "git log failed") (.ok (some (locationAt "old" "a.go" 3))) (.ok "new")

/-- A resolver that finds the line at `b.go:7`, last touched by the branch tip. -/
def currentGit : Git :=
  fixedGit (.ok none) (.ok (some (locationAt "new" "b.go" 7))) (.ok "new")

/-- A resolver that finds the line last touched by a commit older than the branch tip. -/
def staleGit : Git :=
  fixedGit (.ok none) (.ok (some (locationAt "old" "a.go" 3))) (.ok "new")

/-- A resolver that answers the current-location lookup with a location that
has no file but the line 5, last touched by the branch tip. -/
def fileLessGit : Git :=
  fixedGit (.ok none) (.ok (some (locationAt "new" "" 5))) (.ok "new")

/-- A host whose gitleaks run reports the two records `recs` (the payload is
the single byte 1, which `Unmarshal` reads as `recs`). -/
def hostReporting (recs : List GitleaksFinding) : DetectorHost :=
  { DependenciesDir := "/deps"
    MkdirTemp := .ok "/tmp/x"
    Output := fun _ _ => some []
    ReadFile := fun _ => .ok [1]
    Unmarshal := fun _ => .ok recs }

/-- A file system holding one readable file, `content` at `path`; every other
path does not exist. -/
def singleFile (path content : String) : FileSystem :=
  fun p => if p = path then fileWith content else .failed "no such file or directory" true

/-- A file system on which nothing exists. -/
def emptyFileSystem : FileSystem :=
  fun _ => .failed "no such file or directory" true

/-- A file system on which every open is refused. -/
def deniedFileSystem : FileSystem :=
  fun _ => .failed "permission denied" false

/-- A file system on which every file opens, delivers one line and then fails to read. -/
def brokenFileSystem : FileSystem :=
  fun _ => .opened { lines := ["src/a.go"], err := some "input/output error" }

/-- A finding of rule `generic-api-key` at `file:line`. -/
def findingAt (file : String) (line : Int) : UnifiedFinding :=
  { Detector := "gitleaks", IdOnExternalPlatform := none, Rule := "generic-api-key",
    File := file, LineStart := line, LineEnd := line, ColumnStart := 1, ColumnEnd := 8,
    Match := "abc123", Hint := "", Severity := "ERROR", GitInfo := none }

/-- A source file of twelve lines whose line 10 carries the suppression marker. -/
def markedContent : String :=
  "package main\n\nimport \"os\"\n\nfunc main() \x7b\n\tos.Exit(0)\n\x7d\n\nvar (\n"
    ++ "\t// secguro-ignore-next-line\n\tkey = \"abc123\"\n)\n"

/-- The finding of the record `a.go:3..4` once its line is found at `b.go:7`. -/
def resolvedFinding : UnifiedFinding :=
  { Detector := "gitleaks", IdOnExternalPlatform := none, Rule := "generic-api-key",
    File := "b.go", LineStart := 7, LineEnd := 8, ColumnStart := 1, ColumnEnd := 8,
    Match := "abc123", Hint := "", Severity := "ERROR", GitInfo := none }

/-- Two gitleaks records, in the order of the report. -/
def twoRecords : List GitleaksFinding :=
  [recordAt "a.go" 3 4, recordAt "b.go" 1 1]

/-- A comment line: `#` followed by `n` letters. -/
def commentLine (n : Nat) : List Char :=
  '#' :: List.replicate n 'x'

/-- The manifest `src/a.go` followed by a comment line of `n + 1` bytes. -/
def manifestWithComment (n : Nat) : String :=
  String.mk ("src/a.go".data ++ '\n' :: (commentLine n ++ ['\n']))

/-- A manifest with a comment between a file path and its rule and a comment
inside a run of blank lines. -/
def commentedManifest : String :=
  "src/a.go\n# the rule\nruleX\n\n  # note\n\nsrc/b.go\n"

/-! ## Theorems: gitleaks.go -/

theorem wrapInt_of_inRange (x : Int) (hlo : -9223372036854775808 ≤ x)
    (hhi : x < 9223372036854775808) : wrapInt x = x := by
  unfold wrapInt
  omega

theorem wrapInt_sub_wrapInt (a b : Int) : wrapInt (wrapInt a - b) = wrapInt (a - b) := by
  unfold wrapInt
  omega

theorem wrapInt_add_sub_cancel (l e s : Int) :
    wrapInt (wrapInt (wrapInt (l + e) - s) - l) = wrapInt (e - s) := by
  unfold wrapInt
  omega

theorem slash_append_ne_empty (s : String) : "/" ++ s ≠ "" := by
  intro h
  have hlen := congrArg String.length h
  simp only [String.length_append] at hlen
  have h1 : "/".length = 1 := by decide
  have h0 : "".length = 0 := by decide
  omega

/-- C1 (amended): for every record and every resolver whose current-location
lookup returns a non-nil result and whose latest commit hash is obtained and
differs from the CommitHash of that result: when the provenance lookup succeeds,
`convertGitleaksFindingToUnifiedFinding` returns without error a finding with
`File = ""`, `LineStart = -1` and `LineEnd = -1`, whatever the record and the
resolver reported; when the provenance lookup fails, its error is returned and no
finding. -/
theorem convert_stale_location_unknown (git : Git) (directoryToScan : String) (gitMode : Bool)
    (gitleaksFinding : GitleaksFinding) (cur : GitInfo) (latestCommitHash : String)
    (hcur : git.GetGitInfo directoryToScan gitMode gitleaksFinding.Commit gitleaksFinding.File
      gitleaksFinding.StartLine true = .ok (some cur))
    (hlatest : git.GetLatestCommitHash directoryToScan = .ok latestCommitHash)
    (hne : cur.CommitHash ≠ latestCommitHash) :
    (∀ gitInfo : Option GitInfo,
      git.GetGitInfo directoryToScan gitMode gitleaksFinding.Commit gitleaksFinding.File
        gitleaksFinding.StartLine false = .ok gitInfo →
      ∃ u, convertGitleaksFindingToUnifiedFinding git directoryToScan gitMode gitleaksFinding
          = .ok u
        ∧ u.File = "" ∧ u.LineStart = -1 ∧ u.LineEnd = -1)
    ∧ (∀ err : GoError,
      git.GetGitInfo directoryToScan gitMode gitleaksFinding.Commit gitleaksFinding.File
        gitleaksFinding.StartLine false = .error err →
      convertGitleaksFindingToUnifiedFinding git directoryToScan gitMode gitleaksFinding
        = .error err) := by
  constructor
  · intro gitInfo hprov
    simp [convertGitleaksFindingToUnifiedFinding, hprov, hcur, hlatest, hne]
  · intro err hprov
    simp [convertGitleaksFindingToUnifiedFinding, hprov]

/-- Witness of C1 (amended): a record at `a.go:3`, a line last touched by commit
`old` while the branch tip is `new`; with the provenance lookup succeeding the
location is unknown, with the provenance lookup failing the error is returned. -/
theorem convert_stale_location_unknown_witness :
    (∃ u, convertGitleaksFindingToUnifiedFinding staleGit "." true (recordAt "a.go" 3 4) = .ok u
      ∧ u.File = "" ∧ u.LineStart = -1 ∧ u.LineEnd = -1)
    ∧ convertGitleaksFindingToUnifiedFinding
        (fixedGit (.error "unknown revision") (.ok (some (locationAt "old" "a.go" 3))) (.ok "new"))
        "." true (recordAt "a.go" 3 4) = .error "unknown revision" :=
  ⟨(convert_stale_location_unknown staleGit "." true (recordAt "a.go" 3 4)
      (locationAt "old" "a.go" 3) "new" rfl rfl (by decide)).1 none rfl,
   (convert_stale_location_unknown
      (fixedGit (.error "unknown revision") (.ok (some (locationAt "old" "a.go" 3))) (.ok "new"))
      "." true (recordAt "a.go" 3 4)
      (locationAt "old" "a.go" 3) "new" rfl rfl (by decide)).2 "unknown revision" rfl⟩

/-- C1 as stated fails: the resolver answers the current-location lookup of the
record with a non-nil result whose CommitHash differs from the latest commit
hash, yet its provenance lookup fails; the adapter stops there and returns that
error and no finding. -/
theorem convert_stale_location_provenance_error :
    provenanceFailingGit.GetGitInfo "." true (recordAt "a.go" 3 4).Commit
        (recordAt "a.go" 3 4).File (recordAt "a.go" 3 4).StartLine true
      = .ok (some (locationAt "old" "a.go" 3))
    ∧ provenanceFailingGit.GetLatestCommitHash "." = .ok "new"
    ∧ (locationAt "old" "a.go" 3).CommitHash ≠ "new"
    ∧ convertGitleaksFindingToUnifiedFinding provenanceFailingGit "." true (recordAt "a.go" 3 4)
      = .error "git log failed" := by
  refine ⟨rfl, rfl, by decide, rfl⟩

theorem convert_ok_cases (git : Git) (directoryToScan : String) (gitMode : Bool)
    (gitleaksFinding : GitleaksFinding) (u : UnifiedFinding)
    (hok : convertGitleaksFindingToUnifiedFinding git directoryToScan gitMode gitleaksFinding
      = .ok u) :
    (git.GetGitInfo directoryToScan gitMode gitleaksFinding.Commit gitleaksFinding.File
        gitleaksFinding.StartLine true = .ok none
      ∧ u.File = "/" ++ gitleaksFinding.File ∧ u.LineStart = gitleaksFinding.StartLine
      ∧ u.LineEnd = gitleaksFinding.EndLine)
    ∨ (∃ cur latestCommitHash,
        git.GetGitInfo directoryToScan gitMode gitleaksFinding.Commit gitleaksFinding.File
          gitleaksFinding.StartLine true = .ok (some cur)
        ∧ git.GetLatestCommitHash directoryToScan = .ok latestCommitHash
        ∧ ((cur.CommitHash = latestCommitHash ∧ u.File = cur.File ∧ u.LineStart = cur.Line
            ∧ u.LineEnd = wrapInt (wrapInt (cur.Line + gitleaksFinding.EndLine)
                - gitleaksFinding.StartLine))
          ∨ (cur.CommitHash ≠ latestCommitHash ∧ u.File = "" ∧ u.LineStart = -1
            ∧ u.LineEnd = -1))) := by
  unfold convertGitleaksFindingToUnifiedFinding at hok
  split at hok
  · cases hok
  · split at hok
    · cases hok
    · rename_i currentLocationGitInfo hcur
      cases currentLocationGitInfo with
      | none =>
        simp only [Except.ok.injEq] at hok
        subst hok
        exact Or.inl ⟨hcur, rfl, rfl, rfl⟩
      | some cur =>
        simp only at hok
        split at hok
        · cases hok
        · rename_i latestCommitHash hlatest
          refine Or.inr ⟨cur, latestCommitHash, hcur, hlatest, ?_⟩
          by_cases heq : cur.CommitHash = latestCommitHash
          · simp only [heq, if_true, Except.ok.injEq] at hok
            subst hok
            exact Or.inl ⟨heq, rfl, rfl, rfl⟩
          · simp only [heq, if_false, Except.ok.injEq] at hok
            subst hok
            exact Or.inr ⟨heq, rfl, rfl, rfl⟩

/-- C2 (amended): for every finding `u` that
`convertGitleaksFindingToUnifiedFinding` returns without error: when the current
location is non-nil with a CommitHash other than the latest commit hash,
`File = ""`, `LineStart = -1` and `LineEnd = -1` all hold; when the
current-location lookup is nil, File is `/` followed by the file of the record, never empty, and
the lines are those of the record; when the hashes are equal, File and LineStart
are those of the resolver and LineEnd is `Line + EndLine - StartLine` (wrapping).
Hence `File = ""` if and only if `LineStart = -1` and `LineEnd = -1` holds
exactly when a passed-through record does not have both lines -1 and an
equal-hash location has an empty File exactly when its Line and the computed
LineEnd are both -1. -/
theorem convert_unknown_location_iff (git : Git) (directoryToScan : String) (gitMode : Bool)
    (gitleaksFinding : GitleaksFinding) (u : UnifiedFinding)
    (hok : convertGitleaksFindingToUnifiedFinding git directoryToScan gitMode gitleaksFinding
      = .ok u) :
    (∀ cur latestCommitHash,
      git.GetGitInfo directoryToScan gitMode gitleaksFinding.Commit gitleaksFinding.File
        gitleaksFinding.StartLine true = .ok (some cur) →
      git.GetLatestCommitHash directoryToScan = .ok latestCommitHash →
      cur.CommitHash ≠ latestCommitHash →
      u.File = "" ∧ u.LineStart = -1 ∧ u.LineEnd = -1)
    ∧ (git.GetGitInfo directoryToScan gitMode gitleaksFinding.Commit gitleaksFinding.File
        gitleaksFinding.StartLine true = .ok none →
      u.File = "/" ++ gitleaksFinding.File ∧ u.File ≠ ""
        ∧ u.LineStart = gitleaksFinding.StartLine ∧ u.LineEnd = gitleaksFinding.EndLine)
    ∧ (∀ cur,
      git.GetGitInfo directoryToScan gitMode gitleaksFinding.Commit gitleaksFinding.File
        gitleaksFinding.StartLine true = .ok (some cur) →
      git.GetLatestCommitHash directoryToScan = .ok cur.CommitHash →
      u.File = cur.File ∧ u.LineStart = cur.Line
        ∧ u.LineEnd = wrapInt (wrapInt (cur.Line + gitleaksFinding.EndLine)
            - gitleaksFinding.StartLine))
    ∧ ((u.File = "" ↔ (u.LineStart = -1 ∧ u.LineEnd = -1))
        ↔ ((git.GetGitInfo directoryToScan gitMode gitleaksFinding.Commit gitleaksFinding.File
              gitleaksFinding.StartLine true = .ok none →
            ¬ (gitleaksFinding.StartLine = -1 ∧ gitleaksFinding.EndLine = -1))
          ∧ (∀ cur,
            git.GetGitInfo directoryToScan gitMode gitleaksFinding.Commit gitleaksFinding.File
              gitleaksFinding.StartLine true = .ok (some cur) →
            git.GetLatestCommitHash directoryToScan = .ok cur.CommitHash →
            (cur.File = "" ↔
              (cur.Line = -1
                ∧ wrapInt (wrapInt (cur.Line + gitleaksFinding.EndLine)
                    - gitleaksFinding.StartLine) = -1))))) := by
  rcases convert_ok_cases git directoryToScan gitMode gitleaksFinding u hok with
    ⟨hcur, hfile, hstart, hend⟩ | ⟨cur, latestCommitHash, hcur, hlatest, hbranch⟩
  · have hne : u.File ≠ "" := hfile ▸ slash_append_ne_empty _
    refine ⟨?_, fun _ => ⟨hfile, hne, hstart, hend⟩, ?_, ?_⟩
    · intro c l hc
      rw [hcur] at hc
      cases hc
    · intro c hc
      rw [hcur] at hc
      cases hc
    · rw [hstart, hend]
      constructor
      · intro hiff
        refine ⟨fun _ hboth => hne (hiff.mpr hboth), ?_⟩
        intro c hc
        rw [hcur] at hc
        cases hc
      · intro hcond
        exact ⟨fun h => absurd h hne, fun hboth => absurd hboth (hcond.1 hcur)⟩
  · rcases hbranch with ⟨heq, hfile, hstart, hend⟩ | ⟨hneq, hfile, hstart, hend⟩
    · have hcur' : ∀ c, git.GetGitInfo directoryToScan gitMode gitleaksFinding.Commit
          gitleaksFinding.File gitleaksFinding.StartLine true = .ok (some c) → c = cur := by
        intro c hc
        rw [hcur] at hc
        injection hc with hc
        injection hc with hc
        exact hc.symm
      refine ⟨?_, ?_, ?_, ?_⟩
      · intro c l hc hl hcl
        have hc' := hcur' c hc
        subst hc'
        rw [hlatest] at hl
        injection hl with hl
        exact absurd (heq.trans hl) hcl
      · intro hc
        rw [hcur] at hc
        cases hc
      · intro c hc _
        have hc' := hcur' c hc
        subst hc'
        exact ⟨hfile, hstart, hend⟩
      · rw [hfile, hstart, hend]
        constructor
        · intro hiff
          refine ⟨?_, ?_⟩
          · intro hc
            rw [hcur] at hc
            cases hc
          · intro c hc _
            have hc' := hcur' c hc
            subst hc'
            exact hiff
        · intro hcond
          exact hcond.2 cur hcur (heq ▸ hlatest)
    · refine ⟨fun _ _ _ _ _ => ⟨hfile, hstart, hend⟩, ?_, ?_, ?_⟩
      · intro hc
        rw [hcur] at hc
        cases hc
      · intro c hc hl
        rw [hcur] at hc
        injection hc with hc
        injection hc with hc
        subst hc
        rw [hlatest] at hl
        injection hl with hl
        exact absurd hl.symm hneq
      · rw [hfile, hstart, hend]
        constructor
        · intro _
          refine ⟨?_, ?_⟩
          · intro hc
            rw [hcur] at hc
            cases hc
          · intro c hc hl
            rw [hcur] at hc
            injection hc with hc
            injection hc with hc
            subst hc
            rw [hlatest] at hl
            injection hl with hl
            exact absurd hl.symm hneq
        · intro _
          exact ⟨fun _ => ⟨rfl, rfl⟩, fun _ => rfl⟩

/-- Witness of C2 (amended): a record at `a.go:3..4` whose line the resolver
finds at `b.go:7`, last touched by the branch tip: the finding has the file and
line of the resolver, and the equivalence holds because the location has a file
and a line. -/
theorem convert_unknown_location_iff_witness :
    convertGitleaksFindingToUnifiedFinding currentGit "." true (recordAt "a.go" 3 4)
      = .ok resolvedFinding
    ∧ (resolvedFinding.File = "b.go" ∧ resolvedFinding.LineStart = 7
        ∧ resolvedFinding.LineEnd = wrapInt (wrapInt (7 + 4) - 3))
    ∧ (resolvedFinding.File = ""
        ↔ (resolvedFinding.LineStart = -1 ∧ resolvedFinding.LineEnd = -1)) :=
  by
  have hthm := convert_unknown_location_iff currentGit "." true (recordAt "a.go" 3 4)
    resolvedFinding rfl
  refine ⟨rfl, hthm.2.2.1 (locationAt "new" "b.go" 7) rfl rfl, hthm.2.2.2.mpr ⟨?_, ?_⟩⟩
  · intro h
    cases h
  · intro cur hcur _
    have h : cur = locationAt "new" "b.go" 7 := by
      have h' : (Except.ok (some (locationAt "new" "b.go" 7)) : Except GoError (Option GitInfo))
          = .ok (some cur) := hcur
      injection h' with h'
      injection h' with h'
      exact h'.symm
    subst h
    decide

/-- C2 as stated fails in both directions. Without history the record is passed
through, so a record whose lines are both -1 gives a finding with both lines
-1 and the non-empty File `/a.go`. With history and equal hashes the
location of the resolver is copied, so a location without file at line 5 gives
a finding with `File = ""` and `LineStart = 5`. -/
theorem convert_unknown_location_iff_fails :
    (∃ u, convertGitleaksFindingToUnifiedFinding noHistoryGit "." false
          (recordAt "a.go" (-1) (-1)) = .ok u
      ∧ u.LineStart = -1 ∧ u.LineEnd = -1 ∧ u.File = "/a.go" ∧ u.File ≠ "")
    ∧ (∃ u, convertGitleaksFindingToUnifiedFinding fileLessGit "." true (recordAt "a.go" 3 4)
          = .ok u
      ∧ u.File = "" ∧ u.LineStart = 5 ∧ u.LineStart ≠ -1) :=
  ⟨⟨_, rfl, rfl, rfl, by decide, by decide⟩, ⟨_, rfl, rfl, rfl, by decide⟩⟩

/-- C9 (amended): when the provenance lookup succeeds, the current-location lookup
returns a non-nil result and the latest commit hash is obtained and equals the
CommitHash of that result, the function returns without error a finding whose
File and LineStart are the file and line of the resolver and whose LineEnd is
`Line + EndLine - StartLine` in wrapping 64-bit arithmetic: `LineEnd - LineStart`
and `EndLine - StartLine` agree modulo 2^64, and are equal whenever
`Line + EndLine - StartLine` lies in the signed 64-bit range. -/
theorem convert_current_location_extent (git : Git) (directoryToScan : String) (gitMode : Bool)
    (gitleaksFinding : GitleaksFinding) (gitInfo : Option GitInfo) (cur : GitInfo)
    (latestCommitHash : String)
    (hprov : git.GetGitInfo directoryToScan gitMode gitleaksFinding.Commit gitleaksFinding.File
      gitleaksFinding.StartLine false = .ok gitInfo)
    (hcur : git.GetGitInfo directoryToScan gitMode gitleaksFinding.Commit gitleaksFinding.File
      gitleaksFinding.StartLine true = .ok (some cur))
    (hlatest : git.GetLatestCommitHash directoryToScan = .ok latestCommitHash)
    (heq : cur.CommitHash = latestCommitHash) :
    ∃ u, convertGitleaksFindingToUnifiedFinding git directoryToScan gitMode gitleaksFinding = .ok u
      ∧ u.File = cur.File ∧ u.LineStart = cur.Line
      ∧ wrapInt (u.LineEnd - u.LineStart)
          = wrapInt (gitleaksFinding.EndLine - gitleaksFinding.StartLine)
      ∧ (-9223372036854775808 ≤ cur.Line + gitleaksFinding.EndLine - gitleaksFinding.StartLine →
          cur.Line + gitleaksFinding.EndLine - gitleaksFinding.StartLine < 9223372036854775808 →
          u.LineEnd - u.LineStart = gitleaksFinding.EndLine - gitleaksFinding.StartLine) := by
  have hconv : convertGitleaksFindingToUnifiedFinding git directoryToScan gitMode gitleaksFinding
      = .ok { Detector := "gitleaks", IdOnExternalPlatform := none,
              Rule := gitleaksFinding.RuleID, File := cur.File, LineStart := cur.Line,
              LineEnd := wrapInt (wrapInt (cur.Line + gitleaksFinding.EndLine)
                - gitleaksFinding.StartLine),
              ColumnStart := gitleaksFinding.StartColumn, ColumnEnd := gitleaksFinding.EndColumn,
              Match := gitleaksFinding.Match, Hint := "", Severity := "ERROR",
              GitInfo := gitInfo } := by
    simp only [convertGitleaksFindingToUnifiedFinding, hprov, hcur, hlatest, heq, if_true]
  refine ⟨_, hconv, rfl, rfl, ?_, ?_⟩
  · exact wrapInt_add_sub_cancel _ _ _
  · intro hlo hhi
    show wrapInt (wrapInt (cur.Line + gitleaksFinding.EndLine) - gitleaksFinding.StartLine)
      - cur.Line = _
    rw [wrapInt_sub_wrapInt, wrapInt_of_inRange _ hlo hhi]
    omega

/-- Witness of C9 (amended): a record at `a.go:3..4` whose line the resolver
finds at `b.go:7`, last touched by the branch tip. -/
theorem convert_current_location_extent_witness :
    ∃ u, convertGitleaksFindingToUnifiedFinding currentGit "." true (recordAt "a.go" 3 4) = .ok u
      ∧ u.File = "b.go" ∧ u.LineStart = 7
      ∧ wrapInt (u.LineEnd - u.LineStart) = wrapInt (4 - 3)
      ∧ (-9223372036854775808 ≤ (7 : Int) + 4 - 3 → (7 : Int) + 4 - 3 < 9223372036854775808 →
          u.LineEnd - u.LineStart = 4 - 3) :=
  convert_current_location_extent currentGit "." true (recordAt "a.go" 3 4) none
    (locationAt "new" "b.go" 7) "new" rfl rfl rfl rfl

/-- C9 as stated fails in exact integer arithmetic: for a record spanning lines
`1 .. 9223372036854775807` whose first line the resolver finds at line 2 of the
branch tip, `Line + EndLine` wraps around and `LineEnd - LineStart` is not
`EndLine - StartLine`. -/
theorem convert_current_location_overflow :
    ∃ u, convertGitleaksFindingToUnifiedFinding
          (fixedGit (.ok none) (.ok (some (locationAt "new" "a.go" 2))) (.ok "new")) "." true
          (recordAt "a.go" 1 9223372036854775807) = .ok u
      ∧ u.File = "a.go" ∧ u.LineStart = 2 ∧ u.LineEnd = -9223372036854775808
      ∧ u.LineEnd - u.LineStart
          ≠ (recordAt "a.go" 1 9223372036854775807).EndLine
            - (recordAt "a.go" 1 9223372036854775807).StartLine :=
  ⟨_, rfl, rfl, rfl, by decide, by decide⟩

theorem MapWithError_ok_iff {α β : Type} (f : α → Except GoError β) (xs : List α) (ys : List β) :
    MapWithError xs f = .ok ys ↔ xs.map f = ys.map Except.ok := by
  induction xs generalizing ys with
  | nil =>
    cases ys <;> simp [MapWithError]
  | cons x rest ih =>
    unfold MapWithError
    cases ys with
    | nil =>
      cases f x with
      | error e => simp
      | ok y => cases MapWithError rest f <;> simp
    | cons y' ys' =>
      simp only [List.map_cons, List.cons.injEq]
      rw [← ih ys']
      cases f x with
      | error e => simp
      | ok y => cases MapWithError rest f <;> simp

theorem MapWithError_error_of_mem {α β : Type} (f : α → Except GoError β) (xs : List α)
    (h : ∃ x ∈ xs, ∃ e, f x = .error e) : ∃ e, MapWithError xs f = .error e := by
  cases hm : MapWithError xs f with
  | error e => exact ⟨e, rfl⟩
  | ok ys =>
    obtain ⟨x, hx, e, he⟩ := h
    have hmap := (MapWithError_ok_iff f xs ys).mp hm
    have hmem : f x ∈ xs.map f := List.mem_map_of_mem f hx
    rw [hmap, he] at hmem
    simp at hmem

theorem MapWithError_ok_of_forall {α β : Type} (f : α → Except GoError β) (xs : List α)
    (h : ∀ x ∈ xs, ∃ y, f x = .ok y) : ∃ ys, MapWithError xs f = .ok ys := by
  induction xs with
  | nil => exact ⟨[], rfl⟩
  | cons x rest ih =>
    obtain ⟨y, hy⟩ := h x (List.mem_cons_self _ _)
    obtain ⟨ys, hys⟩ := ih (fun z hz => h z (List.mem_cons_of_mem _ hz))
    exact ⟨y :: ys, by simp [MapWithError, hy, hys]⟩

/-- C3: whatever the outcome of the three steps (obtaining the detector output,
parsing it, converting each record), the sends of `GetGitleaksFindingsAsUnified`
are findings followed by exactly one termination record, of detector `gitleaks`,
sent last; if a step fails (the conversion of one record among many included)
the record says `Successful = false` and no finding is sent; if all steps succeed
it says `Successful = true` and the findings sent are the converted records, in
the order of the parsed records. -/
theorem adapter_sends_one_termination (host : DetectorHost) (git : Git) (directoryToScan : String)
    (gitMode : Bool) :
    ∃ (unifiedFindings : List UnifiedFinding) (successful : Bool),
      GetGitleaksFindingsAsUnified host git directoryToScan gitMode
        = unifiedFindings.map ChannelWrite.finding
          ++ [.termination { Detector := "gitleaks", Successful := successful }]
      ∧ (((∃ e, getGitleaksOutputJson host directoryToScan gitMode = .error e)
          ∨ (∃ json e, getGitleaksOutputJson host directoryToScan gitMode = .ok json
              ∧ host.Unmarshal json = .error e)
          ∨ (∃ json recs, getGitleaksOutputJson host directoryToScan gitMode = .ok json
              ∧ host.Unmarshal json = .ok recs
              ∧ ∃ r ∈ recs, ∃ e,
                  convertGitleaksFindingToUnifiedFinding git directoryToScan gitMode r = .error e))
          → successful = false ∧ unifiedFindings = [])
      ∧ (∀ json recs, getGitleaksOutputJson host directoryToScan gitMode = .ok json →
          host.Unmarshal json = .ok recs →
          (∀ r ∈ recs, ∃ u,
            convertGitleaksFindingToUnifiedFinding git directoryToScan gitMode r = .ok u) →
          successful = true
            ∧ recs.map (convertGitleaksFindingToUnifiedFinding git directoryToScan gitMode)
              = unifiedFindings.map Except.ok) := by
  cases hout : getGitleaksOutputJson host directoryToScan gitMode with
  | error e =>
    refine ⟨[], false, by simp [GetGitleaksFindingsAsUnified, hout], fun _ => ⟨rfl, rfl⟩, ?_⟩
    intro json recs h
    cases h
  | ok json =>
    cases hparse : host.Unmarshal json with
    | error e =>
      refine ⟨[], false, by simp [GetGitleaksFindingsAsUnified, hout, hparse],
        fun _ => ⟨rfl, rfl⟩, ?_⟩
      intro json' recs h h'
      cases h
      rw [hparse] at h'
      cases h'
    | ok recs =>
      cases hmap : MapWithError recs
          (convertGitleaksFindingToUnifiedFinding git directoryToScan gitMode) with
      | error e =>
        refine ⟨[], false, by simp [GetGitleaksFindingsAsUnified, hout, hparse, hmap],
          fun _ => ⟨rfl, rfl⟩, ?_⟩
        intro json' recs' h h' hall
        cases h
        rw [hparse] at h'
        cases h'
        obtain ⟨ys, hys⟩ := MapWithError_ok_of_forall _ recs hall
        rw [hmap] at hys
        cases hys
      | ok us =>
        refine ⟨us, true, by simp [GetGitleaksFindingsAsUnified, hout, hparse, hmap], ?_, ?_⟩
        · rintro (⟨e, he⟩ | ⟨json', e, hj, he⟩ | ⟨json', recs', hj, hr, hbad⟩)
          · cases he
          · cases hj
            rw [hparse] at he
            cases he
          · cases hj
            rw [hparse] at hr
            cases hr
            obtain ⟨e, he⟩ := MapWithError_error_of_mem _ recs hbad
            rw [hmap] at he
            cases he
        · intro json' recs' h h' _
          cases h
          rw [hparse] at h'
          cases h'
          exact ⟨rfl, (MapWithError_ok_iff _ recs us).mp hmap⟩

/-- Witness of C3: a report of two records scanned without history sends the
two converted findings, in order, and then the successful termination; the same
report with a failing resolver sends the failed termination alone. -/
theorem adapter_sends_one_termination_witness :
    (∃ unifiedFindings : List UnifiedFinding,
      GetGitleaksFindingsAsUnified (hostReporting twoRecords) noHistoryGit "." false
        = unifiedFindings.map ChannelWrite.finding
          ++ [.termination { Detector := "gitleaks", Successful := true }]
      ∧ twoRecords.map (convertGitleaksFindingToUnifiedFinding noHistoryGit "." false)
        = unifiedFindings.map Except.ok)
    ∧ GetGitleaksFindingsAsUnified (hostReporting twoRecords) provenanceFailingGit "." true
        = [.termination { Detector := "gitleaks", Successful := false }] := by
  constructor
  · obtain ⟨us, successful, hsend, _, hok⟩ :=
      adapter_sends_one_termination (hostReporting twoRecords) noHistoryGit "." false
    obtain ⟨hs, hus⟩ := hok [1] twoRecords rfl rfl (fun r _ => ⟨_, rfl⟩)
    subst hs
    exact ⟨us, hsend, hus⟩
  · obtain ⟨us, successful, hsend, hfail, _⟩ :=
      adapter_sends_one_termination (hostReporting twoRecords) provenanceFailingGit "." true
    obtain ⟨hs, hus⟩ := hfail (Or.inr (Or.inr ⟨[1], twoRecords, rfl, rfl,
      recordAt "a.go" 3 4, by simp [twoRecords], "git log failed", rfl⟩))
    subst hs hus
    exact hsend

/-! ## Theorems: ignoring.go -/

/-! ### The manifest parser never panics -/

theorem parseLine_invariant (st : ParserState) (text : String)
    (h : st.inNewParagraph = false → st.ignoreInstructions ≠ []) :
    ∃ st', parseLine st text = some st'
      ∧ (st'.inNewParagraph = false → st'.ignoreInstructions ≠ []) := by
  unfold parseLine
  simp only
  split
  · exact ⟨st, rfl, h⟩
  · split
    · exact ⟨_, rfl, by simp⟩
    · split
      · exact ⟨_, rfl, by simp⟩
      · rename_i hnew
        have hne : st.ignoreInstructions ≠ [] := h (by simpa using hnew)
        cases hlast : st.ignoreInstructions.getLast? with
        | none => exact absurd (List.getLast?_eq_none_iff.mp hlast) hne
        | some last => exact ⟨_, rfl, by simp⟩

theorem parseLines_invariant (lines : List String) (st : ParserState)
    (h : st.inNewParagraph = false → st.ignoreInstructions ≠ []) :
    ∃ st', parseLines lines st = some st'
      ∧ (st'.inNewParagraph = false → st'.ignoreInstructions ≠ []) := by
  induction lines generalizing st with
  | nil => exact ⟨st, rfl, h⟩
  | cons text rest ih =>
    obtain ⟨st1, h1, hinv1⟩ := parseLine_invariant st text h
    obtain ⟨st2, h2, hinv2⟩ := ih st1 hinv1
    exact ⟨st2, by simp [parseLines, h1, h2], hinv2⟩

theorem parseLines_initial (lines : List String) :
    ∃ st, parseLines lines { ignoreInstructions := [], inNewParagraph := true } = some st
      ∧ (st.inNewParagraph = false → st.ignoreInstructions ≠ []) :=
  parseLines_invariant lines _ (by simp)

theorem getFileBasedIgnoreInstructions_ne_panic (os : FileSystem) (directoryToScan : String) :
    getFileBasedIgnoreInstructions os directoryToScan ≠ .panic := by
  unfold getFileBasedIgnoreInstructions
  cases hopen : os (directoryToScan ++ "/" ++ ignoreFileName) with
  | failed err isNotExist =>
    cases isNotExist <;> simp
  | opened file =>
    obtain ⟨st, hst, _⟩ := parseLines_initial file.lines
    simp only [hst]
    cases file.err <;> simp

/-- C10: the manifest parser never indexes an empty instruction list. For every
sequence of manifest lines (hence after every line of a manifest, a prefix being
such a sequence) the scan loop runs through without panic and leaves a state in
which `inNewParagraph` is false only if `ignoreInstructions` is non-empty; so in
a state that reaches the rule-appending branch the indexed list is non-empty and
the step succeeds, and `getFileBasedIgnoreInstructions` never panics. -/
theorem manifest_parser_never_indexes_empty :
    (∀ lines : List String,
      ∃ st, parseLines lines { ignoreInstructions := [], inNewParagraph := true } = some st
        ∧ (st.inNewParagraph = false → st.ignoreInstructions ≠ []))
    ∧ (∀ (pre : List String) (st : ParserState) (text : String),
        parseLines pre { ignoreInstructions := [], inNewParagraph := true } = some st →
        HasPrefix (TrimSpace text) "#" = false → TrimSpace text ≠ "" →
        st.inNewParagraph = false →
        st.ignoreInstructions ≠ [] ∧ ∃ st', parseLine st text = some st')
    ∧ (∀ (os : FileSystem) (directoryToScan : String),
        getFileBasedIgnoreInstructions os directoryToScan ≠ .panic) := by
  refine ⟨parseLines_initial, ?_, getFileBasedIgnoreInstructions_ne_panic⟩
  intro pre st text hpre _ _ hnew
  obtain ⟨st0, hst0, hinv⟩ := parseLines_initial pre
  rw [hpre] at hst0
  cases hst0
  obtain ⟨st', hst', _⟩ := parseLine_invariant st text hinv
  exact ⟨hinv hnew, st', hst'⟩

/-- Witness of C10: manifests that begin with a comment, with blank lines or
with a lone rule-like line are parsed without panic; the first line that counts
opens a paragraph. -/
theorem manifest_parser_never_indexes_empty_witness :
    getFileBasedIgnoreInstructions (singleFile "./.secguroignore" "# header\nruleX\n") "."
      = .ok [{ FilePath := "ruleX", LineNumber := -1, Rules := [] }]
    ∧ getFileBasedIgnoreInstructions (singleFile "./.secguroignore" "\n \nruleX\nruleY\n") "."
      = .ok [{ FilePath := "ruleX", LineNumber := -1, Rules := ["ruleY"] }]
    ∧ getFileBasedIgnoreInstructions (singleFile "./.secguroignore" "ruleX") "."
      = .ok [{ FilePath := "ruleX", LineNumber := -1, Rules := [] }]
    ∧ getFileBasedIgnoreInstructions (singleFile "./.secguroignore" "ruleX") "." ≠ .panic :=
  ⟨by decide, by decide, by decide,
   manifest_parser_never_indexes_empty.2.2 (singleFile "./.secguroignore" "ruleX") "."⟩

/-! ### Missing files and read errors -/

theorem secretsLoop_eq (lines acc : List String) :
    secretsLoop lines acc = acc ++ trimmedEntries lines := by
  induction lines generalizing acc with
  | nil => simp [secretsLoop, trimmedEntries]
  | cons text rest ih =>
    unfold secretsLoop
    simp only
    split
    · rename_i h
      rw [ih]
      simp only [trimmedEntries, List.map_cons] at h ⊢
      rw [List.filter_cons_of_neg (by
        show ¬ (!(HasPrefix (TrimSpace text) "#" || decide (TrimSpace text = ""))) = true
        rw [h]
        decide)]
    · rename_i h
      rw [ih]
      simp only [trimmedEntries, List.map_cons] at h ⊢
      rw [List.filter_cons_of_pos (by
        show (!(HasPrefix (TrimSpace text) "#" || decide (TrimSpace text = ""))) = true
        rw [Bool.not_eq_true] at h
        rw [h]
        rfl)]
      simp

/-- C6: for `getFileBasedIgnoreInstructions` and `getIgnoredSecrets` alike, an
open that fails because the file does not exist gives the empty list and no
error; an open that fails otherwise gives that error; a read error after a
successful open gives that error and no list. -/
theorem suppression_source_errors (os : FileSystem) (directoryToScan : String) :
    (∀ err, os (directoryToScan ++ "/" ++ ignoreFileName) = .failed err true →
      getFileBasedIgnoreInstructions os directoryToScan = .ok [])
    ∧ (∀ err, os (directoryToScan ++ "/" ++ ignoreFileName) = .failed err false →
      getFileBasedIgnoreInstructions os directoryToScan = .error err)
    ∧ (∀ lines err,
      os (directoryToScan ++ "/" ++ ignoreFileName) = .opened { lines := lines, err := some err } →
      getFileBasedIgnoreInstructions os directoryToScan = .error err)
    ∧ (∀ err, os (directoryToScan ++ "/" ++ secretsIgnoreFileName) = .failed err true →
      getIgnoredSecrets os directoryToScan = .ok [])
    ∧ (∀ err, os (directoryToScan ++ "/" ++ secretsIgnoreFileName) = .failed err false →
      getIgnoredSecrets os directoryToScan = .error err)
    ∧ (∀ lines err,
      os (directoryToScan ++ "/" ++ secretsIgnoreFileName)
        = .opened { lines := lines, err := some err } →
      getIgnoredSecrets os directoryToScan = .error err) := by
  refine ⟨?_, ?_, ?_, ?_, ?_, ?_⟩
  · intro err h
    simp [getFileBasedIgnoreInstructions, h]
  · intro err h
    simp [getFileBasedIgnoreInstructions, h]
  · intro lines err h
    obtain ⟨st, hst, _⟩ := parseLines_initial lines
    simp [getFileBasedIgnoreInstructions, h, hst]
  · intro err h
    simp [getIgnoredSecrets, h]
  · intro err h
    simp [getIgnoredSecrets, h]
  · intro lines err h
    simp [getIgnoredSecrets, h]

/-- Witness of C6: a workspace without the two files, one where opening them is
refused, and one where reading them fails after the first line. -/
theorem suppression_source_errors_witness :
    getFileBasedIgnoreInstructions emptyFileSystem "." = .ok []
    ∧ getFileBasedIgnoreInstructions deniedFileSystem "." = .error "permission denied"
    ∧ getFileBasedIgnoreInstructions brokenFileSystem "." = .error "input/output error"
    ∧ getIgnoredSecrets emptyFileSystem "." = .ok []
    ∧ getIgnoredSecrets deniedFileSystem "." = .error "permission denied"
    ∧ getIgnoredSecrets brokenFileSystem "." = .error "input/output error" :=
  ⟨(suppression_source_errors emptyFileSystem ".").1 _ rfl,
   (suppression_source_errors deniedFileSystem ".").2.1 _ rfl,
   (suppression_source_errors brokenFileSystem ".").2.2.1 _ _ rfl,
   (suppression_source_errors emptyFileSystem ".").2.2.2.1 _ rfl,
   (suppression_source_errors deniedFileSystem ".").2.2.2.2.1 _ rfl,
   (suppression_source_errors brokenFileSystem ".").2.2.2.2.2 _ _ rfl⟩

/-! ### The secret-ignore list -/

/-- C7 (amended): for every secret-ignore list read without error,
`getIgnoredSecrets` returns one entry per line whose trimmed text is neither
empty nor starts with `#`, in file order and without merging repeated values,
and each entry is the whitespace-trimmed text of its line. -/
theorem getIgnoredSecrets_trimmed_entries (os : FileSystem) (directoryToScan : String)
    (lines : List String)
    (hopen : os (directoryToScan ++ "/" ++ secretsIgnoreFileName)
      = .opened { lines := lines, err := none }) :
    getIgnoredSecrets os directoryToScan
      = .ok ((lines.map TrimSpace).filter (fun line => !(HasPrefix line "#" || line = ""))) := by
  simp only [getIgnoredSecrets, hopen, secretsLoop_eq, List.nil_append]
  rfl

/-- Witness of C7 (amended): a list with a comment, a blank line, an indented
secret and a repeated secret. -/
theorem getIgnoredSecrets_trimmed_entries_witness :
    getIgnoredSecrets (singleFile "./.secguroignore-secrets" "# old keys\n\n  abc123\nxyz\nabc123\n")
      "." = .ok ["abc123", "xyz", "abc123"] :=
  (getIgnoredSecrets_trimmed_entries
    (singleFile "./.secguroignore-secrets" "# old keys\n\n  abc123\nxyz\nabc123\n") "."
    ["# old keys", "", "  abc123", "xyz", "abc123"] (by decide)).trans
    (congrArg Except.ok (by decide))

/-- C7 as stated fails: the only line of the list is ` abc` (a blank, then
`abc`), neither blank nor a comment, and the entry returned is `abc`, not the
literal text of the line. -/
theorem getIgnoredSecrets_entry_not_literal :
    ScanLines " abc\n" = [" abc"]
    ∧ getIgnoredSecrets (singleFile "./.secguroignore-secrets" " abc\n") "." = .ok ["abc"]
    ∧ getIgnoredSecrets (singleFile "./.secguroignore-secrets" " abc\n") "." ≠ .ok [" abc"] :=
  ⟨by decide, rfl, fun h => absurd (Except.ok.inj h) (by decide)⟩

/-! ### Comment lines of the manifest -/

theorem parseLine_comment (st : ParserState) (text : String) (h : isCommentLine text = true) :
    parseLine st text = some st := by
  unfold isCommentLine at h
  simp [parseLine, h]

theorem parseLines_filter_comments (lines : List String) (st : ParserState) :
    parseLines (lines.filter (fun text => !isCommentLine text)) st = parseLines lines st := by
  induction lines generalizing st with
  | nil => rfl
  | cons text rest ih =>
    cases h : isCommentLine text with
    | true =>
      rw [List.filter_cons_of_neg (by simp [h])]
      simp [parseLines, parseLine_comment st text h, ih]
    | false =>
      rw [List.filter_cons_of_pos (by simp [h])]
      simp only [parseLines]
      cases parseLine st text with
      | none => rfl
      | some st' => exact ih st'

theorem parseLine_no_comment (st : ParserState) (text : String) (st' : ParserState)
    (hinv : ∀ i ∈ st.ignoreInstructions,
      HasPrefix i.FilePath "#" = false ∧ ∀ r ∈ i.Rules, HasPrefix r "#" = false)
    (h : parseLine st text = some st') :
    ∀ i ∈ st'.ignoreInstructions,
      HasPrefix i.FilePath "#" = false ∧ ∀ r ∈ i.Rules, HasPrefix r "#" = false := by
  unfold parseLine at h
  simp only at h
  split at h
  · cases h
    exact hinv
  · rename_i hc
    have hc' : HasPrefix (TrimSpace text) "#" = false := by simpa using hc
    split at h
    · cases h
      exact hinv
    · split at h
      · cases h
        intro i hi
        rcases List.mem_append.mp hi with hi | hi
        · exact hinv i hi
        · simp only [List.mem_singleton] at hi
          subst hi
          exact ⟨hc', by simp⟩
      · cases hlast : st.ignoreInstructions.getLast? with
        | none => simp [hlast] at h
        | some last =>
          simp only [hlast, Option.some.injEq] at h
          subst h
          have hmem : last ∈ st.ignoreInstructions := by
            have hsplit := @List.dropLast_append_getLast? _ st.ignoreInstructions last
              (by simp [hlast])
            rw [← hsplit]
            simp
          intro i hi
          rcases List.mem_append.mp hi with hi | hi
          · exact hinv i (List.mem_of_mem_dropLast hi)
          · simp only [List.mem_singleton] at hi
            subst hi
            refine ⟨(hinv last hmem).1, ?_⟩
            intro r hr
            rcases List.mem_append.mp hr with hr | hr
            · exact (hinv last hmem).2 r hr
            · simp only [List.mem_singleton] at hr
              subst hr
              exact hc'

theorem parseLines_no_comment (lines : List String) (st st' : ParserState)
    (hinv : ∀ i ∈ st.ignoreInstructions,
      HasPrefix i.FilePath "#" = false ∧ ∀ r ∈ i.Rules, HasPrefix r "#" = false)
    (h : parseLines lines st = some st') :
    ∀ i ∈ st'.ignoreInstructions,
      HasPrefix i.FilePath "#" = false ∧ ∀ r ∈ i.Rules, HasPrefix r "#" = false := by
  induction lines generalizing st with
  | nil =>
    simp only [parseLines, Option.some.injEq] at h
    subst h
    exact hinv
  | cons text rest ih =>
    simp only [parseLines] at h
    cases h1 : parseLine st text with
    | none => simp [h1] at h
    | some st1 =>
      simp only [h1] at h
      exact ih st1 (parseLine_no_comment st text st1 hinv h1) h

theorem getFileBasedIgnoreInstructions_no_comment (os : FileSystem) (directoryToScan : String)
    (ignoreInstructions : List IgnoreInstruction)
    (h : getFileBasedIgnoreInstructions os directoryToScan = .ok ignoreInstructions) :
    ∀ i ∈ ignoreInstructions,
      HasPrefix i.FilePath "#" = false ∧ ∀ r ∈ i.Rules, HasPrefix r "#" = false := by
  unfold getFileBasedIgnoreInstructions at h
  cases hopen : os (directoryToScan ++ "/" ++ ignoreFileName) with
  | failed err isNotExist =>
    cases isNotExist
    · simp [hopen] at h
    · simp only [hopen, if_true, GoResult.ok.injEq] at h
      subst h
      simp
  | opened file =>
    simp only [hopen] at h
    cases hparse : parseLines file.lines { ignoreInstructions := [], inNewParagraph := true } with
    | none => simp [hparse] at h
    | some st =>
      simp only [hparse] at h
      cases herr : file.err with
      | some err => simp [herr] at h
      | none =>
        simp only [herr, GoResult.ok.injEq] at h
        subst h
        exact parseLines_no_comment file.lines _ st (by simp) hparse

theorem rawLinesFrom_no_newline (cs cur : List Char) (hcur : '\n' ∉ cur) :
    ∀ raw ∈ rawLinesFrom cs cur, '\n' ∉ raw := by
  induction cs generalizing cur with
  | nil =>
    intro raw hraw
    unfold rawLinesFrom at hraw
    split at hraw
    · simp at hraw
    · simp only [List.mem_singleton] at hraw
      subst hraw
      exact hcur
  | cons c cs ih =>
    intro raw hraw
    unfold rawLinesFrom at hraw
    split at hraw
    · rcases List.mem_cons.mp hraw with h | h
      · subst h
        exact hcur
      · exact ih [] (by simp) raw h
    · rename_i hc
      refine ih (cur ++ [c]) ?_ raw hraw
      intro hmem
      rcases List.mem_append.mp hmem with h | h
      · exact hcur h
      · simp only [List.mem_singleton] at h
        exact hc h.symm

theorem rawLinesFrom_line (l rest cur : List Char) (hl : '\n' ∉ l) :
    rawLinesFrom (l ++ '\n' :: rest) cur = (cur ++ l) :: rawLinesFrom rest [] := by
  induction l generalizing cur with
  | nil => simp [rawLinesFrom]
  | cons c l ih =>
    have hc : c ≠ '\n' := fun h => hl (by simp [h])
    have hl' : '\n' ∉ l := fun h => hl (List.mem_cons_of_mem _ h)
    rw [List.cons_append, rawLinesFrom, if_neg hc, ih (cur ++ [c]) hl']
    simp

theorem rawLinesFrom_join (ls : List (List Char)) (h : ∀ l ∈ ls, '\n' ∉ l) :
    rawLinesFrom (ls.flatMap (fun raw => raw ++ ['\n'])) [] = ls := by
  induction ls with
  | nil => simp [rawLinesFrom]
  | cons l ls ih =>
    have hl : '\n' ∉ l := h l (List.mem_cons_self _ _)
    have hls : ∀ l' ∈ ls, '\n' ∉ l' := fun l' hl' => h l' (List.mem_cons_of_mem _ hl')
    rw [List.flatMap_cons, List.append_assoc, List.singleton_append,
      rawLinesFrom_line l _ [] hl, ih hls]
    simp

theorem rawLinesFrom_deleteCommentLines (content : String) :
    rawLinesFrom (deleteCommentLines content).data []
      = (rawLinesFrom content.data []).filter
          (fun raw => !isCommentLine (String.mk (dropCR raw))) := by
  unfold deleteCommentLines
  apply rawLinesFrom_join
  intro l hl
  exact rawLinesFrom_no_newline content.data [] (by simp) l (List.mem_of_mem_filter hl)

theorem scanTokens_tooLong (raws : List (List Char))
    (h : ∃ raw ∈ raws, MaxScanTokenSize ≤ byteLength raw) :
    (scanTokens raws).err = some "bufio.Scanner: token too long" := by
  induction raws with
  | nil =>
    obtain ⟨raw, hraw, _⟩ := h
    simp at hraw
  | cons raw rest ih =>
    unfold scanTokens
    by_cases hlong : MaxScanTokenSize ≤ byteLength raw
    · simp [hlong]
    · simp only [hlong, if_false]
      apply ih
      obtain ⟨r, hr, hrlong⟩ := h
      rcases List.mem_cons.mp hr with hr | hr
      · subst hr
        exact absurd hrlong hlong
      · exact ⟨r, hr, hrlong⟩

theorem scanTokens_fit (raws : List (List Char))
    (h : ∀ raw ∈ raws, ¬ MaxScanTokenSize ≤ byteLength raw) :
    scanTokens raws
      = { lines := raws.map (fun raw => String.mk (dropCR raw)), err := none } := by
  induction raws with
  | nil => rfl
  | cons raw rest ih =>
    have hraw := h raw (List.mem_cons_self _ _)
    have hrest := ih (fun r hr => h r (List.mem_cons_of_mem _ hr))
    unfold scanTokens
    simp only [hraw, if_false, hrest, List.map_cons]

theorem getFileBasedIgnoreInstructions_read_error (os : FileSystem) (directoryToScan : String)
    (file : Scanned) (err : GoError)
    (hopen : os (directoryToScan ++ "/" ++ ignoreFileName) = .opened file)
    (herr : file.err = some err) :
    getFileBasedIgnoreInstructions os directoryToScan = .error err := by
  obtain ⟨st, hst, _⟩ := parseLines_initial file.lines
  simp [getFileBasedIgnoreInstructions, hopen, hst, herr]

theorem getFileBasedIgnoreInstructions_read_ok (os : FileSystem) (directoryToScan : String)
    (lines : List String)
    (hopen : os (directoryToScan ++ "/" ++ ignoreFileName)
      = .opened { lines := lines, err := none }) :
    ∃ st, parseLines lines { ignoreInstructions := [], inNewParagraph := true } = some st
      ∧ getFileBasedIgnoreInstructions os directoryToScan = .ok st.ignoreInstructions := by
  obtain ⟨st, hst, _⟩ := parseLines_initial lines
  exact ⟨st, hst, by simp [getFileBasedIgnoreInstructions, hopen, hst]⟩

/-- C8 (amended): comment lines are skipped everywhere in the suppression
manifest except by the line buffer of the scanner. For every manifest content,
`getFileBasedIgnoreInstructions` returns the same result as for the content with
every comment line (trimmed text starting with `#`) deleted exactly when the
content has no line of 64 KiB or more or has such a line that is no comment; in
particular whenever every comment line is shorter than 64 KiB. When comment
lines are the only lines of 64 KiB or more, the content is a read error (token
too long) and the content without them is parsed. No FilePath and no rule of a
returned instruction is a comment line. -/
theorem manifest_comments_skipped (os os' : FileSystem) (directoryToScan : String)
    (content : String)
    (hopen : os (directoryToScan ++ "/" ++ ignoreFileName) = .opened (bufioScan content))
    (hopen' : os' (directoryToScan ++ "/" ++ ignoreFileName)
      = .opened (bufioScan (deleteCommentLines content))) :
    (getFileBasedIgnoreInstructions os' directoryToScan
        = getFileBasedIgnoreInstructions os directoryToScan
      ↔ ((∃ raw ∈ rawLinesFrom content.data [], MaxScanTokenSize ≤ byteLength raw) →
          ∃ raw ∈ rawLinesFrom content.data [],
            MaxScanTokenSize ≤ byteLength raw ∧ isCommentLine (String.mk (dropCR raw)) = false))
    ∧ ((∀ raw ∈ rawLinesFrom content.data [],
          isCommentLine (String.mk (dropCR raw)) = true → byteLength raw < MaxScanTokenSize) →
        getFileBasedIgnoreInstructions os' directoryToScan
          = getFileBasedIgnoreInstructions os directoryToScan)
    ∧ (∀ ignoreInstructions,
        getFileBasedIgnoreInstructions os directoryToScan = .ok ignoreInstructions →
        ∀ i ∈ ignoreInstructions,
          HasPrefix i.FilePath "#" = false ∧ ∀ r ∈ i.Rules, HasPrefix r "#" = false) := by
  have hraws' : bufioScan (deleteCommentLines content)
      = scanTokens ((rawLinesFrom content.data []).filter
          (fun raw => !isCommentLine (String.mk (dropCR raw)))) := by
    unfold bufioScan
    rw [rawLinesFrom_deleteCommentLines]
  rw [hraws'] at hopen'
  unfold bufioScan at hopen
  generalize rawLinesFrom content.data [] = raws at hopen hopen'
  have hiff : getFileBasedIgnoreInstructions os' directoryToScan
        = getFileBasedIgnoreInstructions os directoryToScan
      ↔ ((∃ raw ∈ raws, MaxScanTokenSize ≤ byteLength raw) →
          ∃ raw ∈ raws,
            MaxScanTokenSize ≤ byteLength raw
              ∧ isCommentLine (String.mk (dropCR raw)) = false) := by
    by_cases hlong : ∃ raw ∈ raws, MaxScanTokenSize ≤ byteLength raw
    · have hres := getFileBasedIgnoreInstructions_read_error os directoryToScan _ _ hopen
        (scanTokens_tooLong raws hlong)
      by_cases hplain : ∃ raw ∈ raws,
          MaxScanTokenSize ≤ byteLength raw ∧ isCommentLine (String.mk (dropCR raw)) = false
      · obtain ⟨raw, hraw, hrlong, hrplain⟩ := hplain
        have hres' := getFileBasedIgnoreInstructions_read_error os' directoryToScan _ _ hopen'
          (scanTokens_tooLong _ ⟨raw, List.mem_filter.mpr ⟨hraw, by simp [hrplain]⟩, hrlong⟩)
        rw [hres, hres']
        exact ⟨fun _ _ => ⟨raw, hraw, hrlong, hrplain⟩, fun _ => rfl⟩
      · have hfit : ∀ raw ∈ raws.filter (fun raw => !isCommentLine (String.mk (dropCR raw))),
            ¬ MaxScanTokenSize ≤ byteLength raw := by
          intro raw hraw hrlong
          obtain ⟨hmem, hp⟩ := List.mem_filter.mp hraw
          exact hplain ⟨raw, hmem, hrlong, by simpa using hp⟩
        rw [scanTokens_fit _ hfit] at hopen'
        obtain ⟨st, _, hres'⟩ :=
          getFileBasedIgnoreInstructions_read_ok os' directoryToScan _ hopen'
        rw [hres, hres']
        constructor
        · intro h
          cases h
        · intro h
          exact absurd (h hlong) hplain
    · have hfit : ∀ raw ∈ raws, ¬ MaxScanTokenSize ≤ byteLength raw :=
        fun raw hraw hrlong => hlong ⟨raw, hraw, hrlong⟩
      have hfit' : ∀ raw ∈ raws.filter (fun raw => !isCommentLine (String.mk (dropCR raw))),
          ¬ MaxScanTokenSize ≤ byteLength raw :=
        fun raw hraw => hfit raw (List.mem_of_mem_filter hraw)
      rw [scanTokens_fit _ hfit] at hopen
      rw [scanTokens_fit _ hfit'] at hopen'
      obtain ⟨st, hst, hres⟩ := getFileBasedIgnoreInstructions_read_ok os directoryToScan _ hopen
      obtain ⟨st', hst', hres'⟩ :=
        getFileBasedIgnoreInstructions_read_ok os' directoryToScan _ hopen'
      have hlines : (raws.filter (fun raw => !isCommentLine (String.mk (dropCR raw)))).map
            (fun raw => String.mk (dropCR raw))
          = (raws.map (fun raw => String.mk (dropCR raw))).filter
              (fun text => !isCommentLine text) := by
        rw [List.filter_map]
        rfl
      rw [hlines, parseLines_filter_comments, hst] at hst'
      cases hst'
      rw [hres, hres']
      exact ⟨fun _ h => absurd h hlong, fun _ => rfl⟩
  refine ⟨hiff, ?_, getFileBasedIgnoreInstructions_no_comment os directoryToScan⟩
  intro hshort
  apply hiff.mpr
  rintro ⟨raw, hraw, hrlong⟩
  refine ⟨raw, hraw, hrlong, ?_⟩
  cases hc : isCommentLine (String.mk (dropCR raw)) with
  | false => rfl
  | true => exact absurd hrlong (Nat.not_le.mpr (hshort raw hraw hc))

/-- Witness of C8 (amended): a comment between a file path and its rule, and a
comment inside a run of blank lines, leave the instructions as they are without
them. -/
theorem manifest_comments_skipped_witness :
    deleteCommentLines commentedManifest = "src/a.go\nruleX\n\n\nsrc/b.go\n"
    ∧ getFileBasedIgnoreInstructions
        (fun _ => .opened (bufioScan (deleteCommentLines commentedManifest))) "."
      = getFileBasedIgnoreInstructions (fun _ => .opened (bufioScan commentedManifest)) "."
    ∧ getFileBasedIgnoreInstructions (fun _ => .opened (bufioScan commentedManifest)) "."
      = .ok [{ FilePath := "src/a.go", LineNumber := -1, Rules := ["ruleX"] },
             { FilePath := "src/b.go", LineNumber := -1, Rules := [] }] :=
  ⟨by decide,
   (manifest_comments_skipped (fun _ => .opened (bufioScan commentedManifest))
      (fun _ => .opened (bufioScan (deleteCommentLines commentedManifest))) "."
      commentedManifest rfl rfl).1.mpr (fun h => absurd h (by decide)),
   by decide⟩

theorem scanLinesFrom_eq_rawLinesFrom (cs cur : List Char) :
    scanLinesFrom cs cur = (rawLinesFrom cs cur).map dropCR := by
  induction cs generalizing cur with
  | nil =>
    unfold scanLinesFrom rawLinesFrom
    split <;> simp
  | cons c cs ih =>
    unfold scanLinesFrom rawLinesFrom
    split
    · simp [ih]
    · exact ih _

theorem bufioScan_fit (content : String)
    (h : ∀ raw ∈ rawLinesFrom content.data [], byteLength raw < MaxScanTokenSize) :
    bufioScan content = { lines := ScanLines content, err := none } := by
  unfold bufioScan ScanLines
  rw [scanTokens_fit _ (fun raw hraw => Nat.not_le.mpr (h raw hraw)),
    scanLinesFrom_eq_rawLinesFrom]
  simp

theorem byteLength_commentLine (n : Nat) : byteLength (commentLine n) = n + 1 := by
  have hx : Char.utf8Size 'x' = 1 := by decide
  have hh : Char.utf8Size '#' = 1 := by decide
  simp [byteLength, commentLine, List.map_replicate, List.sum_replicate, hx, hh]
  omega

theorem rawLinesFrom_manifestWithComment (n : Nat) :
    rawLinesFrom (manifestWithComment n).data [] = ["src/a.go".data, commentLine n] := by
  have h1 : '\n' ∉ "src/a.go".data := by decide
  have h2 : '\n' ∉ commentLine n := by
    intro h
    rcases List.mem_cons.mp h with h | h
    · exact absurd h (by decide)
    · exact absurd (List.mem_replicate.mp h).2 (by decide)
  show rawLinesFrom ("src/a.go".data ++ '\n' :: (commentLine n ++ ['\n'])) [] = _
  rw [rawLinesFrom_line _ _ [] h1, List.append_cons (commentLine n) '\n' [],
    List.append_nil, rawLinesFrom_line _ _ [] h2]
  simp [rawLinesFrom]

theorem isCommentLine_commentLine (n : Nat) :
    isCommentLine (String.mk (dropCR (commentLine (n + 1)))) = true := by
  have hs : IsSpace '#' = false := by decide
  have hx : IsSpace 'x' = false := by decide
  have hlast : (commentLine (n + 1)).getLast? = some 'x' := by
    simp [commentLine, List.getLast?_cons, List.getLast?_replicate]
  have hdrop : dropCR (commentLine (n + 1)) = commentLine (n + 1) := by
    unfold dropCR
    rw [hlast]
    simp
  rw [hdrop]
  have hrev : (commentLine (n + 1)).reverse = 'x' :: (List.replicate n 'x' ++ ['#']) := by
    rw [commentLine, List.reverse_cons, List.reverse_replicate, List.replicate_succ,
      List.cons_append]
  have htrim : TrimSpace (String.mk (commentLine (n + 1))) = String.mk (commentLine (n + 1)) := by
    unfold TrimSpace
    have h1 : List.dropWhile IsSpace (commentLine (n + 1)) = commentLine (n + 1) := by
      simp [commentLine, List.dropWhile_cons, hs]
    rw [h1, hrev, List.dropWhile_cons, hx]
    simp only [Bool.false_eq_true, if_false]
    rw [← hrev, List.reverse_reverse]
  unfold isCommentLine
  rw [htrim]
  simp [HasPrefix, commentLine]

/-- C8 as stated fails: in the manifest `src/a.go` followed by a comment line of
65537 bytes the comment does not fit the buffer of the scanner, so the manifest
is a read error (token too long), while the manifest with the comment line
deleted is read and yields the instruction of `src/a.go`. -/
theorem manifest_long_comment_not_skipped :
    getFileBasedIgnoreInstructions
        (fun _ => .opened (bufioScan (manifestWithComment 65536))) "."
      = .error "bufio.Scanner: token too long"
    ∧ deleteCommentLines (manifestWithComment 65536) = "src/a.go\n"
    ∧ getFileBasedIgnoreInstructions
        (fun _ => .opened (bufioScan (deleteCommentLines (manifestWithComment 65536)))) "."
      = .ok [{ FilePath := "src/a.go", LineNumber := -1, Rules := [] }] := by
  have hraws := rawLinesFrom_manifestWithComment 65536
  have hlong : MaxScanTokenSize ≤ byteLength (commentLine 65536) := by
    rw [byteLength_commentLine]
    decide
  have hcomment : isCommentLine (String.mk (dropCR (commentLine 65536))) = true :=
    isCommentLine_commentLine 65535
  have hpath : isCommentLine (String.mk (dropCR "src/a.go".data)) = false := by decide
  have hdel : deleteCommentLines (manifestWithComment 65536) = "src/a.go\n" := by
    unfold deleteCommentLines
    rw [hraws, List.filter_cons_of_pos (by simp [hpath]),
      List.filter_cons_of_neg (by simp [hcomment])]
    decide
  refine ⟨?_, hdel, ?_⟩
  · apply getFileBasedIgnoreInstructions_read_error _ "." _ _ rfl
    apply scanTokens_tooLong
    rw [hraws]
    exact ⟨commentLine 65536, by simp, hlong⟩
  · rw [hdel]
    decide

/-! ### The manifest, paragraph by paragraph -/

theorem keptLines_cons_comment (text : String) (rest : List String)
    (h : HasPrefix (TrimSpace text) "#" = true) : keptLines (text :: rest) = keptLines rest := by
  simp [keptLines, List.filter_cons, h]

theorem keptLines_cons_kept (text : String) (rest : List String)
    (h : HasPrefix (TrimSpace text) "#" = false) :
    keptLines (text :: rest) = TrimSpace text :: keptLines rest := by
  simp [keptLines, List.filter_cons, h]

theorem splitOn_blank_cons (k : List String) : ("" :: k).splitOn "" = [] :: k.splitOn "" := by
  simp [List.splitOn, List.splitOnP_cons]

theorem splitOn_nonblank_cons (x : String) (k : List String) (hx : x ≠ "") :
    (x :: k).splitOn "" = (x :: (k.splitOn "").headD []) :: (k.splitOn "").tail := by
  have hne : List.splitOnP (fun y => y == "") k ≠ [] := List.splitOnP_ne_nil _ _
  simp only [List.splitOn, List.splitOnP_cons]
  have hx' : (x == "") = false := by simpa using hx
  simp only [hx', Bool.false_eq_true, if_false]
  cases hk : List.splitOnP (fun y => y == "") k with
  | nil => exact absurd hk hne
  | cons g gs => rfl

theorem parseLine_blank (st : ParserState) (text : String)
    (hc : HasPrefix (TrimSpace text) "#" = false) (hb : TrimSpace text = "") :
    parseLine st text = some { st with inNewParagraph := true } := by
  rw [hb] at hc
  simp [parseLine, hc, hb]

theorem parseLine_path (acc : List IgnoreInstruction) (text : String)
    (hc : HasPrefix (TrimSpace text) "#" = false) (hb : TrimSpace text ≠ "") :
    parseLine { ignoreInstructions := acc, inNewParagraph := true } text
      = some { ignoreInstructions :=
                 acc ++ [{ FilePath := TrimSpace text, LineNumber := -1, Rules := [] }]
               inNewParagraph := false } := by
  simp [parseLine, hc, hb]

theorem parseLine_rule (acc : List IgnoreInstruction) (last : IgnoreInstruction) (text : String)
    (hc : HasPrefix (TrimSpace text) "#" = false) (hb : TrimSpace text ≠ "") :
    parseLine { ignoreInstructions := acc ++ [last], inNewParagraph := false } text
      = some { ignoreInstructions :=
                 acc ++ [{ last with Rules := last.Rules ++ [TrimSpace text] }]
               inNewParagraph := false } := by
  simp [parseLine, hc, hb, List.getLast?_concat, List.dropLast_concat]

theorem parseLines_paragraphs (lines : List String) :
    (∀ acc : List IgnoreInstruction,
      (parseLines lines { ignoreInstructions := acc, inNewParagraph := true }).map
          (fun st => st.ignoreInstructions)
        = some (acc ++ manifestInstructions lines))
    ∧ (∀ (acc : List IgnoreInstruction) (last : IgnoreInstruction),
      (parseLines lines { ignoreInstructions := acc ++ [last], inNewParagraph := false }).map
          (fun st => st.ignoreInstructions)
        = some (acc ++
            ({ last with Rules := last.Rules ++ ((keptLines lines).splitOn "").headD [] }
              :: ((((keptLines lines).splitOn "").tail).filter
                    (fun paragraph => !paragraph.isEmpty)).map instructionOfParagraph))) := by
  induction lines with
  | nil =>
    constructor
    · intro acc
      simp [parseLines, manifestInstructions, paragraphsOf, keptLines, List.splitOn]
    · intro acc last
      simp [parseLines, keptLines, List.splitOn]
  | cons text rest ih =>
    obtain ⟨ihT, ihF⟩ := ih
    cases hc : HasPrefix (TrimSpace text) "#" with
    | true =>
      have hstep : ∀ st, parseLine st text = some st := fun st =>
        parseLine_comment st text hc
      constructor
      · intro acc
        simp only [parseLines, hstep, manifestInstructions, paragraphsOf,
          keptLines_cons_comment text rest hc]
        exact ihT acc
      · intro acc last
        simp only [parseLines, hstep, keptLines_cons_comment text rest hc]
        exact ihF acc last
    | false =>
      by_cases hb : TrimSpace text = ""
      · constructor
        · intro acc
          simp only [parseLines, parseLine_blank _ text hc hb, manifestInstructions, paragraphsOf,
            keptLines_cons_kept text rest hc, hb, splitOn_blank_cons]
          rw [ihT acc]
          simp [manifestInstructions, paragraphsOf]
        · intro acc last
          simp only [parseLines, parseLine_blank _ text hc hb,
            keptLines_cons_kept text rest hc, hb, splitOn_blank_cons]
          rw [ihT (acc ++ [last])]
          simp [manifestInstructions, paragraphsOf]
      · constructor
        · intro acc
          simp only [parseLines, parseLine_path acc text hc hb, manifestInstructions,
            paragraphsOf, keptLines_cons_kept text rest hc, splitOn_nonblank_cons _ _ hb]
          rw [ihF acc]
          simp [instructionOfParagraph]
        · intro acc last
          simp only [parseLines, parseLine_rule acc last text hc hb,
            keptLines_cons_kept text rest hc, splitOn_nonblank_cons _ _ hb]
          rw [ihF acc]
          simp

/-- C4: for every suppression manifest read without error,
`getFileBasedIgnoreInstructions` returns one instruction per paragraph, in file
order, a paragraph being a maximal run of non-blank lines of the trimmed manifest
without its comment lines: FilePath is the first line of the paragraph,
LineNumber is -1 and Rules are the remaining lines in order. -/
theorem getFileBasedIgnoreInstructions_paragraphs (os : FileSystem) (directoryToScan : String)
    (lines : List String)
    (hopen : os (directoryToScan ++ "/" ++ ignoreFileName)
      = .opened { lines := lines, err := none }) :
    getFileBasedIgnoreInstructions os directoryToScan
      = .ok ((paragraphsOf lines).map (fun paragraph =>
          { FilePath := paragraph.headD "", LineNumber := -1, Rules := paragraph.tail })) := by
  have h := (parseLines_paragraphs lines).1 []
  simp only [getFileBasedIgnoreInstructions, hopen]
  cases hparse : parseLines lines { ignoreInstructions := [], inNewParagraph := true } with
  | none => simp [hparse] at h
  | some st =>
    simp only [hparse, Option.map_some', Option.some.injEq, List.nil_append] at h
    simp only [h]
    rfl

/-- Witness of C4: the manifest `src/a.go`, `ruleX`, a blank line, `src/b.go`
yields exactly the instruction of `src/a.go` with rule `ruleX` and the
instruction of `src/b.go` without rules. -/
theorem getFileBasedIgnoreInstructions_paragraphs_witness :
    getFileBasedIgnoreInstructions (singleFile "./.secguroignore" "src/a.go\nruleX\n\nsrc/b.go\n")
      "." = .ok [{ FilePath := "src/a.go", LineNumber := -1, Rules := ["ruleX"] },
                 { FilePath := "src/b.go", LineNumber := -1, Rules := [] }] :=
  (getFileBasedIgnoreInstructions_paragraphs
    (singleFile "./.secguroignore" "src/a.go\nruleX\n\nsrc/b.go\n") "."
    ["src/a.go", "ruleX", "", "src/b.go"] (by decide)).trans (congrArg GoResult.ok (by decide))

/-! ### Line-based instructions -/

theorem MatchString_iff (pattern line : String) :
    MatchString pattern line = true ↔ pattern.data <:+: line.data := by
  unfold MatchString
  rw [List.any_eq_true, List.infix_iff_prefix_suffix]
  constructor
  · rintro ⟨t, ht, hp⟩
    exact ⟨t, List.isPrefixOf_iff_prefix.mp hp, (List.mem_tails _ _).mp ht⟩
  · rintro ⟨t, hp, ht⟩
    exact ⟨t, (List.mem_tails _ _).mpr ht, List.isPrefixOf_iff_prefix.mpr hp⟩

theorem matchingLinesLoop_eq (pattern : String) (lines : List String) (k : Nat)
    (matchingLines : List Int) :
    matchingLinesLoop pattern lines (k : Int) matchingLines
      = matchingLines ++ (lines.enumFrom k).filterMap (fun numbered =>
          if pattern.data <:+: numbered.2.data then some (numbered.1 : Int) else none) := by
  induction lines generalizing k matchingLines with
  | nil => simp [matchingLinesLoop]
  | cons line rest ih =>
    have hk : (k : Int) + 1 = ((k + 1 : Nat) : Int) := by push_cast; rfl
    unfold matchingLinesLoop
    rw [hk]
    by_cases hm : pattern.data <:+: line.data
    · rw [if_pos ((MatchString_iff pattern line).mpr hm), ih]
      simp [List.enumFrom_cons, List.filterMap_cons, hm]
    · have hn : ¬ MatchString pattern line = true := fun h => hm ((MatchString_iff _ _).mp h)
      rw [if_neg hn, ih]
      simp [List.enumFrom_cons, List.filterMap_cons, hm]

theorem lineNumbersLoop_eq (filePath : String) (lineNumbers : List Int)
    (ignoreInstructions : List IgnoreInstruction) :
    lineNumbersLoop filePath lineNumbers ignoreInstructions
      = ignoreInstructions ++ lineNumbers.map (fun lineNumber =>
          { FilePath := filePath, LineNumber := lineNumber + 1, Rules := [] }) := by
  induction lineNumbers generalizing ignoreInstructions with
  | nil => simp [lineNumbersLoop]
  | cons n rest ih => simp [lineNumbersLoop, ih]

theorem lineNumbersLoop_matchingLines (filePath : String) (lines : List String)
    (ignoreInstructions : List IgnoreInstruction) :
    lineNumbersLoop filePath (matchingLinesLoop "secguro-ignore-next-line" lines 1 [])
        ignoreInstructions
      = ignoreInstructions ++ markerInstructions filePath lines := by
  have h := matchingLinesLoop_eq "secguro-ignore-next-line" lines 1 []
  simp only [Nat.cast_one, List.nil_append] at h
  rw [lineNumbersLoop_eq, h, List.map_filterMap]
  congr 1
  unfold markerInstructions
  congr 1
  funext numbered
  by_cases hm : "secguro-ignore-next-line".data <:+: numbered.2.data <;> simp [hm]

theorem instructionsLoop_eq (os : FileSystem) (directoryToScan : String) (filePaths : List String)
    (ignoreInstructions : List IgnoreInstruction) :
    instructionsLoop os directoryToScan filePaths ignoreInstructions
      = ignoreInstructions ++ filePaths.flatMap (fun filePath =>
          match os (directoryToScan ++ "/" ++ filePath) with
          | .opened { lines := lines, err := none } => markerInstructions filePath lines
          | _ => []) := by
  induction filePaths generalizing ignoreInstructions with
  | nil => simp [instructionsLoop]
  | cons filePath rest ih =>
    unfold instructionsLoop getNumbersOfMatchingLines
    cases hopen : os (directoryToScan ++ "/" ++ filePath) with
    | failed err isNotExist =>
      simp [ih, hopen]
    | opened file =>
      obtain ⟨lines, err⟩ := file
      cases err with
      | some e => simp [ih, hopen]
      | none =>
        simp only [ih, lineNumbersLoop_matchingLines]
        simp [hopen]

theorem filter_firstOccurrences_append (L acc : List String) (x : String) :
    L.filter (fun y => !(acc ++ [x]).contains y)
      = (L.filter (fun y => y != x)).filter (fun y => !acc.contains y) := by
  rw [List.filter_filter]
  apply List.filter_congr
  intro y _
  by_cases hy : y = x
  · simp [hy]
  · by_cases hacc : y ∈ acc <;> simp [hy, hacc]

theorem filter_firstOccurrences_mem (L acc : List String) (x : String) (hx : x ∈ acc) :
    (L.filter (fun y => y != x)).filter (fun y => !acc.contains y)
      = L.filter (fun y => !acc.contains y) := by
  rw [List.filter_filter]
  apply List.filter_congr
  intro y _
  by_cases hy : y = x
  · simp [hy, hx]
  · simp [hy]

theorem filePathsLoop_eq (unifiedFindings : List UnifiedFinding) (acc : List String) :
    filePathsLoop unifiedFindings acc
      = acc ++ (firstOccurrences (unifiedFindings.map (fun unifiedFinding => unifiedFinding.File))).filter
          (fun y => !acc.contains y) := by
  induction unifiedFindings generalizing acc with
  | nil => simp [filePathsLoop, firstOccurrences]
  | cons u rest ih =>
    unfold filePathsLoop arrayIncludes
    simp only [List.map_cons, firstOccurrences]
    by_cases hmem : u.File ∈ acc
    · have hc : acc.contains u.File = true := by simpa using hmem
      rw [if_pos hc, ih, List.filter_cons_of_neg (by simp [hmem]),
        filter_firstOccurrences_mem _ _ _ hmem]
    · have hc : ¬ acc.contains u.File = true := by simpa using hmem
      rw [if_neg hc, ih, List.filter_cons_of_pos (by simp [hmem]),
        filter_firstOccurrences_append]
      simp

/-- C5: for every list of findings and every file system,
`getLineBasedIgnoreInstructions` returns the concatenation, over the distinct
File values of the findings in order of first occurrence, of nothing when the
read of that file fails (at open or while scanning) and otherwise of one
instruction `{file, n + 1, []}` for each 1-based line number `n`, ascending,
whose line contains the text `secguro-ignore-next-line`; a failing read is no
error and leaves the instructions of the other files in place. -/
theorem getLineBasedIgnoreInstructions_markers (os : FileSystem) (directoryToScan : String)
    (unifiedFindings : List UnifiedFinding) :
    getLineBasedIgnoreInstructions os directoryToScan unifiedFindings
      = (firstOccurrences (unifiedFindings.map (fun unifiedFinding => unifiedFinding.File))).flatMap
          (fun filePath =>
            match os (directoryToScan ++ "/" ++ filePath) with
            | .opened { lines := lines, err := none } =>
              (lines.enumFrom 1).filterMap (fun numbered =>
                if "secguro-ignore-next-line".data <:+: numbered.2.data then
                  some { FilePath := filePath, LineNumber := (numbered.1 : Int) + 1, Rules := [] }
                else none)
            | _ => []) := by
  unfold getLineBasedIgnoreInstructions
  simp only [instructionsLoop_eq, filePathsLoop_eq, List.nil_append]
  have hfilter : ∀ L : List String, L.filter (fun y => !([] : List String).contains y) = L := by
    intro L
    simp
  rw [hfilter]
  rfl

/-- Witness of C5: findings in `a.go` (twice) and in the deleted `gone.go`; the
marker on line 10 of `a.go` yields the instruction for line 11 of `a.go` only. -/
theorem getLineBasedIgnoreInstructions_markers_witness :
    getLineBasedIgnoreInstructions (singleFile "./a.go" markedContent) "."
        [findingAt "a.go" 11, findingAt "gone.go" 3, findingAt "a.go" 2]
      = [{ FilePath := "a.go", LineNumber := 11, Rules := [] }] :=
  (getLineBasedIgnoreInstructions_markers (singleFile "./a.go" markedContent) "."
    [findingAt "a.go" 11, findingAt "gone.go" 3, findingAt "a.go" 2]).trans (by decide)

end Secguro
